import Mathlib

/-!
# kawpowminer `libdevcore/CommonData.cpp`: difficulty and target conversion

A shallow embedding of `dev::getTargetFromDiff` and `dev::getHashesToTarget`,
and of the helpers `dev::fromHex`, `dev::escaped` and `dev::getFormattedHr`,
together with the library calls they rely on:

* `boost::multiprecision::cpp_int` built from a string (`BigInteger.ofString`),
  printed in base 16 (`BigInteger.strHex`) and divided (`BigInteger.divide`);
* `std::string` operations (`find`, `substr`, `erase`, `resize`), modelled on
  `List Char`;
* the stream manipulators `setw(64) << setfill('0')` and
  `boost::algorithm::to_lower`.

The `double` argument of `getTargetFromDiff` is seen by the code only through
three observations: the test `diff == 0`, the integer `BigInteger(1 / diff)`
and the text `lexical_cast<std::string>(1 / diff)`.  The type `Difficulty`
records exactly these observations, so that the arithmetic on
arbitrary-precision integers and on strings is embedded exactly, without
floating point.  In the same way `getHashesToTarget` is embedded up to the
`BigInteger` quotient that it converts to `double`.

A `std::string` is a sequence of bytes; the characters of a Lean string stand
for them (the texts that matter here are ASCII).

The loops of `fromHex` and `getFormattedHr` are embedded with a bound on the
number of their iterations: a result is stated for every bound that is large
enough, and a loop that does not end is one that has not returned under any
bound.  The index of `fromHex` is an `unsigned`, whose arithmetic is taken
modulo `2 ^ 32`.
-/

namespace dev

/-! ## Failures -/

/-- Exceptions raised by the library calls used in `CommonData.cpp`. -/
inductive Failure where
  /-- The `std::runtime_error` of the `cpp_int` string parser: a character that
  is not a digit of the selected radix. -/
  | unexpectedContent : Failure
  /-- The `std::runtime_error` of `cpp_int::str`: base 16 printing of a negative
  number is not supported. -/
  | negativeHex : Failure
  /-- The `std::overflow_error` of `cpp_int` division: the divisor is zero. -/
  | divisionByZero : Failure
  /-- The conversion `BigInteger(double)` of a NaN or an infinity yields no
  integer (the Boost releases that check it throw `std::runtime_error`). -/
  | nonFinite : Failure
  deriving DecidableEq, Repr

deriving instance DecidableEq for Except

/-- Mirror of `enum class HexPrefix`. -/
inductive HexPrefix where
  | DontAdd : HexPrefix
  | Add : HexPrefix
  deriving DecidableEq, Repr

/-! ## `boost::multiprecision::cpp_int` -/

/-- Digit value of a character in `cpp_int`'s string parser: `0-9`, `a-f`,
`A-F` are mapped to `0..15`, and a value that is not below the radix is
rejected. -/
def digitOf (radix : Nat) (c : Char) : Option Nat :=
  let n := c.toNat
  let val :=
    if 48 ≤ n ∧ n ≤ 57 then n - 48            -- '0' .. '9'
    else if 97 ≤ n ∧ n ≤ 102 then 10 + (n - 97)  -- 'a' .. 'f'
    else if 65 ≤ n ∧ n ≤ 70 then 10 + (n - 65)   -- 'A' .. 'F'
    else radix + 1
  if radix ≤ val then none else some val

/-- Digit loop of the parser: `value = value * radix + digit`, throwing on the
first character that is not a digit of the radix. -/
def parseDigits (radix : Nat) : List Char → Nat → Except Failure Nat
  | [], acc => .ok acc
  | c :: cs, acc =>
    match digitOf radix c with
    | none => .error .unexpectedContent
    | some v => parseDigits radix cs (acc * radix + v)

/-- The characters that `c_str()` exposes: everything before the first NUL. -/
def cStr (s : List Char) : List Char :=
  s.takeWhile (fun c => c != Char.ofNat 0)

/-- Optional leading `-` of the parser. -/
def splitSign (s : List Char) : Bool × List Char :=
  match s with
  | c :: t => if c = '-' then (true, t) else (false, s)
  | [] => (false, s)

/-- Radix selection of the parser: `0x` or `0X` selects base 16 (and is
skipped), any other leading `0` selects base 8, everything else is base 10. -/
def splitRadix (s : List Char) : Nat × List Char :=
  match s with
  | c :: d :: t =>
    if c = '0' then (if d = 'x' ∨ d = 'X' then (16, t) else (8, s)) else (10, s)
  | [c] => if c = '0' then (8, s) else (10, s)
  | [] => (10, s)

/-- The constructor `BigInteger(const char*)`, on the characters of a C string:
sign, radix prefix, digits.  The empty digit sequence is the number zero. -/
def BigInteger.ofChars (s : List Char) : Except Failure Int :=
  let (isneg, s1) := splitSign s
  let (radix, s2) := splitRadix s1
  match parseDigits radix s2 0 with
  | .error e => .error e
  | .ok v => .ok (if isneg then -(v : Int) else (v : Int))

/-- The constructor `BigInteger(std::string const&)`: the string is handed
over through `c_str()`. -/
def BigInteger.ofString (s : String) : Except Failure Int :=
  BigInteger.ofChars (cStr s.data)

/-- Division of `cpp_int`: truncation toward zero, and `std::overflow_error`
on a zero divisor. -/
def BigInteger.divide (a b : Int) : Except Failure Int :=
  if b = 0 then .error .divisionByZero else .ok (a.tdiv b)

/-- Digit character used by `cpp_int::str` in base 16: `'0' + v`, moved into
`'A'..'F'` when it is past `'9'`. -/
def hexDigitChar (v : Nat) : Char :=
  if v < 10 then Char.ofNat (48 + v) else Char.ofNat (55 + v)

/-- Base 16 digits of `n`, most significant first, in front of `acc`; no
leading zero, and the single digit `0` for zero.  The first argument bounds
the number of digits. -/
def hexCore : Nat → Nat → List Char → List Char
  | 0, _, acc => acc
  | fuel + 1, n, acc =>
    if n / 16 = 0 then hexDigitChar (n % 16) :: acc
    else hexCore fuel (n / 16) (hexDigitChar (n % 16) :: acc)

/-- The member `cpp_int::str` under `std::hex`: upper case digits without
leading zeros; negative numbers are refused. -/
def BigInteger.strHex (v : Int) : Except Failure (List Char) :=
  if v < 0 then .error .negativeHex
  else .ok (hexCore (v.toNat + 1) v.toNat [])

/-! ## Stream and string helpers -/

/-- Output of a string under `setw(w) << setfill(fill)` (right adjusted):
padding on the left up to the width, never truncating. -/
def setw (w : Nat) (fill : Char) (s : List Char) : List Char :=
  if s.length < w then List.replicate (w - s.length) fill ++ s else s

/-- Position of the first occurrence of `c`, as in `std::string::find`;
`none` stands for `npos`. -/
def find (c : Char) : List Char → Option Nat
  | [] => none
  | x :: xs => if x = c then some 0 else (find c xs).map (· + 1)

/-- Case folding of `boost::algorithm::to_lower` over the string. -/
def to_lower (s : List Char) : List Char :=
  s.map Char.toLower

/-! ## `getTargetFromDiff` -/

/-- What `getTargetFromDiff` observes of its `double` argument `diff`.

* `zero`: the test `diff == 0` holds;
* `inverse idiff sdiff`: `diff` is not zero and `1 / diff` is finite; `idiff`
  is `BigInteger(1 / diff)`, the reciprocal truncated toward zero, and `sdiff`
  is `lexical_cast<std::string>(1 / diff)`, its rendering with 17 significant
  digits;
* `nonFinite`: `1 / diff` is a NaN or an infinity. -/
inductive Difficulty where
  | zero : Difficulty
  | inverse (idiff : Int) (sdiff : String) : Difficulty
  | nonFinite : Difficulty
  deriving DecidableEq, Repr

/-- The static `base`, the literal
`0x00000000ffff0000000000000000000000000000000000000000000000000000`. -/
def base : Int :=
  0x00000000ffff0000000000000000000000000000000000000000000000000000

/-- The literal assigned to `product` when `diff == 0`. -/
def maxTarget : Int :=
  0xffffffffffffffffffffffffffffffffffffffffffffffffffffffffffffffff

/-- The value of the variable `product` when control reaches the rendering
(lines 119 to 168 of `CommonData.cpp`). -/
def targetProduct : Difficulty → Except Failure Int
  | .zero => .ok maxTarget
  | .nonFinite => .error .nonFinite
  | .inverse idiff sdiff =>
    let product := base * idiff
    let ldiff := sdiff.data.length
    match find '.' sdiff.data with
    | none => .ok product
    | some offset =>
      -- Number of decimal places
      let precision := (ldiff - 1) - offset
      -- Effective sequence of decimal places
      let decimals := sdiff.data.drop (offset + 1)
      -- Strip leading zeroes
      let decimals := decimals.dropWhile (fun c => c == '0')
      -- Build up the divisor as string
      let decimalDivisor := '1' :: List.replicate precision '0'
      match BigInteger.ofString (String.mk decimals) with
      | .error e => .error e
      | .ok multiplier =>
        match BigInteger.ofString (String.mk decimalDivisor) with
        | .error e => .error e
        | .ok divisor =>
          match BigInteger.divide (base * multiplier) divisor with
          | .error e => .error e
          | .ok decimalproduct => .ok (product + decimalproduct)

/-- Rendering of `product` (lines 170 to 176): the optional `0x`, then the
base 16 digits padded with `0` to width 64, the whole in lower case. -/
def formatTarget (product : Int) (pfx : HexPrefix) : Except Failure String :=
  match BigInteger.strHex product with
  | .error e => .error e
  | .ok digits =>
    let head := if pfx = HexPrefix.Add then ['0', 'x'] else []
    .ok (String.mk (to_lower (head ++ setw 64 '0' digits)))

/-- Embedding of `dev::getTargetFromDiff`. -/
def getTargetFromDiff (diff : Difficulty) (pfx : HexPrefix) : Except Failure String :=
  match targetProduct diff with
  | .error e => .error e
  | .ok product => formatTarget product pfx

/-! ## `getHashesToTarget` -/

/-- The static `dividend`, the literal
`0xffff000000000000000000000000000000000000000000000000000000000000`. -/
def dividend : Int :=
  0xffff000000000000000000000000000000000000000000000000000000000000

/-- Embedding of `dev::getHashesToTarget`: the `BigInteger` quotient
`dividend / divisor` that the function hands to the conversion `double(...)`. -/
def getHashesToTarget (_target : String) : Except Failure Int :=
  match BigInteger.ofString _target with
  | .error e => .error e
  | .ok divisor => BigInteger.divide dividend divisor

/-! ## Reference notions used in the statements -/

/-- Value of a string of decimal digits read in base 10 (`0` for the empty
string). -/
def intOf (s : List Char) : Nat :=
  s.foldl (fun a c => 10 * a + (c.toNat - 48)) 0

/-- The character is one of `0-9`, `a-f`, `A-F`. -/
def isHexDigit (c : Char) : Bool :=
  c.isDigit || (decide (97 ≤ c.toNat) && decide (c.toNat ≤ 102))
    || (decide (65 ≤ c.toNat) && decide (c.toNat ≤ 70))

/-- Value of a hexadecimal digit: `0-9` are `0..9`, `a-f` and `A-F` are
`10..15`. -/
def hexDigitValue (c : Char) : Nat :=
  if c.isDigit then c.toNat - 48
  else if 97 ≤ c.toNat then c.toNat - 87
  else c.toNat - 55

/-- Value of a string of hexadecimal digits read in base 16 (`0` for the empty
string). -/
def hexOf (s : List Char) : Nat :=
  s.foldl (fun a c => 16 * a + hexDigitValue c) 0

/-- The text of a rendering of the reciprocal in plain positional form: the
integer digits `I`, followed by `.` and the fractional digits `F` when there
is a fractional part. -/
def plainText (I : List Char) : Option (List Char) → List Char
  | none => I
  | some F => I ++ '.' :: F

/-- The integer that the documented algorithm assigns to a plain rendering:
`base * int(I)`, plus the truncated quotient of `base * int(F stripped of its
leading zeros)` by `10 ^ len(F)` when there is a fractional part. -/
def plainTarget (I : List Char) : Option (List Char) → Int
  | none => base * (intOf I : Int)
  | some F =>
    base * (intOf I : Int)
      + base * (intOf (F.dropWhile (fun c => c == '0')) : Int) / (10 : Int) ^ F.length

/-- The rational number that a plain rendering denotes:
`int(I) + int(F) / 10 ^ len(F)`. -/
def plainValue (I : List Char) : Option (List Char) → ℚ
  | none => (intOf I : ℚ)
  | some F => (intOf I : ℚ) + (intOf F : ℚ) / (10 : ℚ) ^ F.length

/-- The digit characters that `getTargetFromDiff` returns for a non-negative
product `n`. -/
def targetDigits (n : Nat) : List Char :=
  to_lower (setw 64 '0' (hexCore (n + 1) n []))

/-- The character is one of `0-9`, `a-f`. -/
def isLowerHexDigit (c : Char) : Bool :=
  c.isDigit || (decide (97 ≤ c.toNat) && decide (c.toNat ≤ 102))

/-- The target as the specification words it for a rendering `I.F`: the floor
of `base * r`, where `r = int(I) + int(F) / 10 ^ len(F)` is the exact rational
value of the rendering. -/
def specTarget (I F : List Char) : Int :=
  ⌊(base : ℚ) * ((intOf I : ℚ) + (intOf F : ℚ) / (10 : ℚ) ^ F.length)⌋

/-- A string without its optional leading `-`. -/
def dropSign (s : List Char) : List Char :=
  match s with
  | c :: t => if c = '-' then t else s
  | [] => []

/-- A string without its optional leading `0x` or `0X`. -/
def dropHexPrefix (s : List Char) : List Char :=
  match s with
  | c :: d :: t => if c = '0' ∧ (d = 'x' ∨ d = 'X') then t else s
  | _ => s

/-- The composition `getHashesToTarget(getTargetFromDiff(diff, HexPrefix::Add))`. -/
def roundTrip (diff : Difficulty) : Except Failure Int :=
  match getTargetFromDiff diff .Add with
  | .error e => .error e
  | .ok target => getHashesToTarget target

/-! ## `fromHex` -/

/-- Mirror of `enum class WhenError`. -/
inductive WhenError where
  | DontThrow : WhenError
  | Throw : WhenError
  deriving DecidableEq, Repr

/-- What a call of `fromHex` comes to. -/
inductive Outcome (α : Type) where
  /-- The call returns the value. -/
  | value (v : α) : Outcome α
  /-- The call throws `BadHexCharacter`. -/
  | badHexCharacter : Outcome α
  /-- The call reads `_s[i]` at a position `i` beyond `_s.size()`. -/
  | outOfRange : Outcome α
  /-- The loop is still running when the allotted number of iterations is
  spent. -/
  | unfinished : Outcome α
  deriving DecidableEq, Repr

/-- Sequencing of two steps: the second runs on the value of the first. -/
def Outcome.bind {α β : Type} : Outcome α → (α → Outcome β) → Outcome β
  | .value v, f => f v
  | .badHexCharacter, _ => .badHexCharacter
  | .outOfRange, _ => .outOfRange
  | .unfinished, _ => .unfinished

/-- Number of values of the type `unsigned` (32 bits): the arithmetic on the
index of `fromHex` is taken modulo this number. -/
def unsignedRange : Nat := 2 ^ 32

/-- The access `_s[i]` of `std::string`: the character at a position below the
size, the terminating NUL at the size itself, and no defined value beyond. -/
def charAt (_s : List Char) (i : Nat) : Outcome Char :=
  match _s.get? i with
  | some c => .value c
  | none => if i = _s.length then .value (Char.ofNat 0) else .outOfRange

/-- Embedding of `dev::fromHex(char, WhenError)`. -/
def fromHexChar (_i : Char) (_throw : WhenError) : Outcome Int :=
  let n : Int := _i.toNat
  if 48 ≤ n ∧ n ≤ 57 then .value (n - 48)
  else if 97 ≤ n ∧ n ≤ 102 then .value (n - 97 + 10)
  else if 65 ≤ n ∧ n ≤ 70 then .value (n - 65 + 10)
  else if _throw = .Throw then .badHexCharacter
  else .value (-1)

/-- The `for` loop of `dev::fromHex(std::string const&, WhenError)`: the first
argument bounds the number of iterations, `i` is the index and `ret` the bytes
pushed so far. -/
def fromHexLoop (_s : List Char) (_throw : WhenError) :
    Nat → Nat → List Nat → Outcome (List Nat)
  | 0, _, _ => .unfinished
  | fuel + 1, i, ret =>
    if i < _s.length then
      (charAt _s i).bind fun ch =>
      (fromHexChar ch .DontThrow).bind fun h =>
      (charAt _s ((i + 1) % unsignedRange)).bind fun cl =>
      (fromHexChar cl .DontThrow).bind fun l =>
      if h ≠ -1 ∧ l ≠ -1 then
        fromHexLoop _s _throw fuel ((i + 2) % unsignedRange)
          (ret ++ [((h * 16 + l) % 256).toNat])
      else if _throw = .Throw then .badHexCharacter
      else .value []
    else .value ret

/-- The part of `dev::fromHex(std::string const&, WhenError)` behind the
initialisation of the local `s`: the first digit taken alone when the size is
odd, then the loop. -/
def fromHexFrom (fuel : Nat) (_s : List Char) (_throw : WhenError) (s : Nat) :
    Outcome (List Nat) :=
  if _s.length % 2 = 1 then
    (charAt _s s).bind fun ch =>
    (fromHexChar ch .DontThrow).bind fun h =>
    if h ≠ -1 then fromHexLoop _s _throw fuel (s + 1) [(h % 256).toNat]
    else if _throw = .Throw then .badHexCharacter
    else .value []
  else fromHexLoop _s _throw fuel s []

/-- Embedding of `dev::fromHex(std::string const&, WhenError)`, with a bound
`fuel` on the number of iterations of its loop.  The local `s` is 2 when
`_s[0] == '0' && _s[1] == 'x'` and 0 otherwise. -/
def fromHex (fuel : Nat) (_s : List Char) (_throw : WhenError) : Outcome (List Nat) :=
  (charAt _s 0).bind fun c0 =>
  (if c0 = '0' then (charAt _s 1).bind fun c1 => .value (decide (c1 = 'x'))
    else .value false).bind fun skip =>
  fromHexFrom fuel _s _throw (if skip then 2 else 0)

/-- Big-endian value of a sequence of bytes. -/
def bytesValue (bs : List Nat) : Nat :=
  bs.foldl (fun a b => 256 * a + b) 0

/-- Bytes of the successive pairs of hexadecimal digits: the pair `h l` gives
the byte `16 * h + l`. -/
def pairBytes : List Char → List Nat
  | h :: l :: rest => (16 * hexDigitValue h + hexDigitValue l) :: pairBytes rest
  | _ => []

/-- Decoding of a string of hexadecimal digits as the claim words it: when the
number of digits is odd the first digit alone forms the first byte, and each
following pair forms one byte. -/
def specFromHex (h : List Char) : List Nat :=
  if h.length % 2 = 1 then
    match h with
    | c :: rest => hexDigitValue c :: pairBytes rest
    | [] => []
  else pairBytes h

/-- A string without its optional leading `0x`. -/
def dropLower0x (s : List Char) : List Char :=
  match s with
  | c :: d :: t => if c = '0' ∧ d = 'x' then t else s
  | _ => s

/-! ## `escaped` -/

/-- The static map `prettyEscapes` of `escaped`: carriage return, line feed,
tabulation and vertical tabulation (byte 11) with their letters. -/
def prettyEscapes : List (Char × Char) :=
  [('\r', 'r'), ('\n', 'n'), ('\t', 't'), (Char.ofNat 11, 'v')]

/-- The cast `(uint8_t)i` of a `char`. -/
def toUInt8 (i : Char) : Nat :=
  i.toNat % 256

/-- The comparison `i < ' '` on `char`: the bytes below 0x20 and, where `char`
is a signed type, the bytes from 0x80 up, which are negative. -/
def lessThanSpace (charSigned : Bool) (i : Char) : Bool :=
  decide (toUInt8 i < 32) || (charSigned && decide (128 ≤ toUInt8 i))

/-- The string literal indexed for the two digits of `\xHH`. -/
def hexTable : List Char :=
  "0123456789abcdef".data

/-- The characters that one iteration of the loop of `escaped` appends to
`ret` for the character `i`. -/
def escapedChar (charSigned : Bool) (_all : Bool) (i : Char) : List Char :=
  if i = '"' ∧ _all = false then ['\\', '"']
  else if i = '\\' ∧ _all = false then ['\\', '\\']
  else if (prettyEscapes.lookup i).isSome = true ∧ _all = false then
    ['\\', (prettyEscapes.lookup i).getD i]
  else if lessThanSpace charSigned i = true ∨ _all = true then
    ['\\', 'x', hexTable.getD (toUInt8 i / 16) '?', hexTable.getD (toUInt8 i % 16) '?']
  else [i]

/-- Embedding of `dev::escaped`; `charSigned` tells whether `char` is a signed
type on the platform. -/
def escaped (charSigned : Bool) (_s : List Char) (_all : Bool) : List Char :=
  _s.foldl (fun ret i => ret ++ escapedChar charSigned _all i) ['"'] ++ ['"']

/-! ## `getFormattedHr` -/

/-- The static array `suffixes`. -/
def suffixes : List String :=
  ["h", "Kh", "Mh", "Gh"]

/-- The `while (true)` loop of `getFormattedHr` for an arbitrary arithmetic:
`below` is the test `_hr < 1000.0` and `scale` the division `_hr /= 1000.0`.
The first argument bounds the number of evaluations of the test; the result
holds `_hr` and `i` at the `break`. -/
def scaleLoop {α : Type} (below : α → Bool) (scale : α → α) :
    Nat → α → Nat → Option (α × Nat)
  | 0, _, _ => none
  | fuel + 1, _hr, i =>
    if below _hr = true ∨ i = 3 then some (_hr, i)
    else scaleLoop below scale fuel (scale _hr) (i + 1)

/-- Embedding of `dev::getFormattedHr` over exact rational arithmetic: the
scaled value that is printed with two decimals, and the suffix `suffixes[i]`
printed behind it. -/
def getFormattedHr (fuel : Nat) (_hr : ℚ) : Option (ℚ × String) :=
  match scaleLoop (fun x => decide (x < 1000)) (fun x => x / 1000) fuel _hr 0 with
  | none => none
  | some (v, i) => (suffixes.get? i).map fun suffix => (v, suffix)

/-- Every double quote of the text stands right behind a backslash. -/
def QuotesEscaped (l : List Char) : Prop :=
  ∀ k, l.get? k = some '"' → ∃ j, k = j + 1 ∧ l.get? j = some '\\'

end dev

namespace dev

/-! ## The literals -/

/-- The three `BigInteger` statics are built from string literals; the parser
gives them the values used here. -/
theorem literals_parsed :
    BigInteger.ofString "0x00000000ffff0000000000000000000000000000000000000000000000000000"
        = .ok base ∧
      BigInteger.ofString "0xffffffffffffffffffffffffffffffffffffffffffffffffffffffffffffffff"
        = .ok maxTarget ∧
      BigInteger.ofString "0xffff000000000000000000000000000000000000000000000000000000000000"
        = .ok dividend := by
  decide

theorem base_eq : base = 0xffff * 2 ^ 208 := by
  unfold base
  norm_num

/-! ## Characters -/

theorem isDigit_iff (c : Char) : c.isDigit = true ↔ 48 ≤ c.toNat ∧ c.toNat ≤ 57 := by
  simp only [Char.isDigit, Bool.and_eq_true, decide_eq_true_eq, ge_iff_le, UInt32.le_def,
    Char.toNat, UInt32.toNat]
  rfl

theorem digit_ne (c d : Char) (hc : c.isDigit = true) (hd : d.toNat < 48 ∨ 57 < d.toNat) :
    c ≠ d := by
  intro e
  subst e
  have := (isDigit_iff c).1 hc
  omega

theorem digitOf_ten (c : Char) (hc : c.isDigit = true) :
    digitOf 10 c = some (c.toNat - 48) := by
  have h := (isDigit_iff c).1 hc
  simp only [digitOf]
  rw [if_pos h, if_neg (by omega)]

/-! ## Parsing decimal digit strings -/

theorem parseDigits_ten (l : List Char) (hl : ∀ c ∈ l, c.isDigit = true) (acc : Nat) :
    parseDigits 10 l acc = .ok (l.foldl (fun a c => 10 * a + (c.toNat - 48)) acc) := by
  induction l generalizing acc with
  | nil => rfl
  | cons c cs ih =>
    have hc := digitOf_ten c (hl c (List.mem_cons_self _ _))
    simp only [parseDigits, hc, List.foldl_cons]
    rw [ih (fun d hd => hl d (List.mem_cons_of_mem _ hd)), Nat.mul_comm]

theorem cStr_digits (l : List Char) (hl : ∀ c ∈ l, c.isDigit = true) : cStr l = l := by
  unfold cStr
  rw [List.takeWhile_eq_self_iff]
  intro c hc
  have := digit_ne c (Char.ofNat 0) (hl c hc) (Or.inl (by decide))
  simpa using this

theorem splitSign_digits (l : List Char) (hl : ∀ c ∈ l, c.isDigit = true) :
    splitSign l = (false, l) := by
  cases l with
  | nil => rfl
  | cons c cs =>
    have := digit_ne c '-' (hl c (List.mem_cons_self _ _)) (Or.inl (by decide))
    simp [splitSign, this]

theorem splitRadix_of_head_ne (l : List Char) (h : l.head? ≠ some '0') :
    splitRadix l = (10, l) := by
  match l with
  | [] => rfl
  | [c] =>
    have : c ≠ '0' := by intro e; apply h; simp [e]
    simp [splitRadix, this]
  | c :: d :: t =>
    have : c ≠ '0' := by intro e; apply h; simp [e]
    simp [splitRadix, this]

theorem ofString_decimal (l : List Char) (hl : ∀ c ∈ l, c.isDigit = true)
    (h0 : l.head? ≠ some '0') :
    BigInteger.ofString (String.mk l) = .ok (intOf l : Int) := by
  simp only [BigInteger.ofString, BigInteger.ofChars, cStr_digits l hl, splitSign_digits l hl,
    splitRadix_of_head_ne l h0, parseDigits_ten l hl 0]
  rfl

end dev

namespace dev

/-! ## Plain renderings -/

theorem dropWhile_zero_digits (F : List Char) (hF : ∀ c ∈ F, c.isDigit = true) :
    ∀ c ∈ F.dropWhile (fun c => c == '0'), c.isDigit = true :=
  fun c hc => hF c ((List.dropWhile_sublist _).subset hc)

theorem dropWhile_zero_head (F : List Char) :
    (F.dropWhile (fun c => c == '0')).head? ≠ some '0' := by
  induction F with
  | nil => simp
  | cons c cs ih =>
    by_cases h : c = '0'
    · simpa [List.dropWhile_cons, h] using ih
    · simp [List.dropWhile_cons, h]

theorem foldl_replicate_zero (p acc : Nat) :
    (List.replicate p '0').foldl (fun a c => 10 * a + (c.toNat - 48)) acc = acc * 10 ^ p := by
  induction p generalizing acc with
  | zero => simp
  | succ p ih =>
    rw [List.replicate_succ, List.foldl_cons, ih]
    have : ('0' : Char).toNat - 48 = 0 := by decide
    rw [this, pow_succ]
    ring

theorem ofString_divisor (p : Nat) :
    BigInteger.ofString (String.mk ('1' :: List.replicate p '0')) = .ok ((10 : Int) ^ p) := by
  have hl : ∀ c ∈ '1' :: List.replicate p '0', c.isDigit = true := by
    intro c hc
    rcases List.mem_cons.1 hc with h | h
    · subst h; decide
    · rw [List.eq_of_mem_replicate h]; decide
  rw [ofString_decimal _ hl (by simp)]
  have : intOf ('1' :: List.replicate p '0') = 10 ^ p := by
    unfold intOf
    rw [List.foldl_cons, foldl_replicate_zero]
    have : 10 * 0 + (('1' : Char).toNat - 48) = 1 := by decide
    rw [this, one_mul]
  rw [this]
  push_cast
  rfl

theorem find_none (c : Char) (s : List Char) (h : c ∉ s) : find c s = none := by
  induction s with
  | nil => rfl
  | cons x xs ih =>
    have hx : x ≠ c := fun e => h (by simp [e])
    have hxs : c ∉ xs := fun e => h (List.mem_cons_of_mem _ e)
    simp [find, hx, ih hxs]

theorem find_append (c : Char) (pre post : List Char) (h : c ∉ pre) :
    find c (pre ++ c :: post) = some pre.length := by
  induction pre with
  | nil => simp [find]
  | cons x xs ih =>
    have hx : x ≠ c := fun e => h (by simp [e])
    have hxs : c ∉ xs := fun e => h (List.mem_cons_of_mem _ e)
    simp [find, hx, ih hxs]

theorem dot_not_mem_digits (I : List Char) (hI : ∀ c ∈ I, c.isDigit = true) : '.' ∉ I :=
  fun h => absurd (hI _ h) (by decide)

theorem dot_not_mem_minus_digits (I : List Char) (hI : ∀ c ∈ I, c.isDigit = true) :
    '.' ∉ '-' :: I := by
  intro h
  rcases List.mem_cons.1 h with h | h
  · exact absurd h (by decide)
  · exact dot_not_mem_digits I hI h

/-- Without a `.` in the rendering, `product` is `base * idiff`. -/
theorem targetProduct_no_dot (idiff : Int) (s : List Char) (h : '.' ∉ s) :
    targetProduct (.inverse idiff (String.mk s)) = .ok (base * idiff) := by
  simp only [targetProduct, find_none '.' s h]

/-- With digits `F` behind the first `.`, `product` is `base * idiff` plus the
quotient of `base * int(F without leading zeros)` by `10 ^ len(F)`. -/
theorem targetProduct_fraction (idiff : Int) (pre F : List Char) (hpre : '.' ∉ pre)
    (hF : ∀ c ∈ F, c.isDigit = true) :
    targetProduct (.inverse idiff (String.mk (pre ++ '.' :: F)))
      = .ok (base * idiff
          + base * (intOf (F.dropWhile (fun c => c == '0')) : Int) / (10 : Int) ^ F.length) := by
  have hlen : (pre ++ '.' :: F).length - 1 - pre.length = F.length := by
    simp
  have hdrop : (pre ++ '.' :: F).drop (pre.length + 1) = F := by
    rw [show pre ++ '.' :: F = (pre ++ ['.']) ++ F by simp]
    rw [List.drop_append_of_le_length (by simp)]
    simp
  simp only [targetProduct, find_append '.' pre F hpre, hlen, hdrop]
  rw [ofString_decimal _ (dropWhile_zero_digits F hF) (dropWhile_zero_head F)]
  simp only [ofString_divisor]
  have hpos : (10 : Int) ^ F.length ≠ 0 := by positivity
  simp only [BigInteger.divide, if_neg hpos]
  congr 2
  apply Int.tdiv_eq_ediv
  · unfold base; positivity
  · positivity

/-- On a plain rendering whose integer digits agree with the truncated
reciprocal, `product` is the integer of the documented algorithm. -/
theorem targetProduct_plain (idiff : Int) (I : List Char) (oF : Option (List Char))
    (hI : ∀ c ∈ I, c.isDigit = true) (hF : ∀ F, oF = some F → ∀ c ∈ F, c.isDigit = true)
    (hid : idiff = (intOf I : Int)) :
    targetProduct (.inverse idiff (String.mk (plainText I oF))) = .ok (plainTarget I oF) := by
  subst hid
  cases oF with
  | none =>
    exact targetProduct_no_dot _ I (dot_not_mem_digits I hI)
  | some F =>
    exact targetProduct_fraction _ I F (dot_not_mem_digits I hI) (hF F rfl)

end dev

namespace dev

/-! ## Rendering of the product -/

theorem hexCore_length_le (fuel : Nat) :
    ∀ (n k : Nat) (acc : List Char), 0 < k → n < 16 ^ k →
      (hexCore fuel n acc).length ≤ k + acc.length := by
  induction fuel with
  | zero => intro n k acc _ _; simp [hexCore]
  | succ fuel ih =>
    intro n k acc hk hn
    unfold hexCore
    by_cases h : n / 16 = 0
    · rw [if_pos h]
      simp only [List.length_cons]
      omega
    · rw [if_neg h]
      have h16 : 16 ≤ n := by
        by_contra hlt
        exact h (Nat.div_eq_of_lt (by omega))
      have hk2 : 1 < k := by
        by_contra hle
        have : k = 1 := by omega
        subst this
        omega
      have hdiv : n / 16 < 16 ^ (k - 1) := by
        apply Nat.div_lt_of_lt_mul
        rw [← pow_succ']
        rwa [Nat.sub_add_cancel (by omega)]
      have := ih (n / 16) (k - 1) (hexDigitChar (n % 16) :: acc) (by omega) hdiv
      simp only [List.length_cons] at this
      omega

theorem setw_length (w : Nat) (fill : Char) (s : List Char) (h : s.length ≤ w) :
    (setw w fill s).length = w := by
  unfold setw
  by_cases hlt : s.length < w
  · rw [if_pos hlt]
    simp only [List.length_append, List.length_replicate]
    omega
  · rw [if_neg hlt]
    omega

theorem to_lower_length (s : List Char) : (to_lower s).length = s.length := by
  simp [to_lower]

/-- A product in `[0, 2 ^ 256)` is rendered with exactly 64 digit characters,
behind the `0x` when it is requested. -/
theorem formatTarget_of_lt (p : Int) (h0 : 0 ≤ p) (h : p < 2 ^ 256) :
    ∃ digits : List Char, digits.length = 64 ∧
      formatTarget p .DontAdd = .ok (String.mk digits) ∧
      formatTarget p .Add = .ok (String.mk ('0' :: 'x' :: digits)) := by
  have hneg : ¬ p < 0 := by omega
  have hlen : (hexCore (p.toNat + 1) p.toNat []).length ≤ 64 := by
    have hp : p.toNat < 16 ^ 64 := by
      have : (16 : Nat) ^ 64 = 2 ^ 256 := by norm_num
      omega
    simpa using hexCore_length_le (p.toNat + 1) p.toNat 64 [] (by omega) hp
  refine ⟨to_lower (setw 64 '0' (hexCore (p.toNat + 1) p.toNat [])), ?_, ?_, ?_⟩
  · rw [to_lower_length, setw_length _ _ _ hlen]
  · simp [formatTarget, BigInteger.strHex, hneg]
  · simp [formatTarget, BigInteger.strHex, hneg, to_lower]

theorem plainTarget_nonneg (I : List Char) (oF : Option (List Char)) : 0 ≤ plainTarget I oF := by
  cases oF with
  | none => unfold plainTarget base; positivity
  | some F => unfold plainTarget base; positivity

/-! ## Claims -/

/-- C1. For a reciprocal rendered as the digits `I`, or as `I.F` with `F` a
non-empty string of digits, and truncated to `int(I)`, `getTargetFromDiff`
computes the product `base * int(I)`, respectively
`base * int(I) + (base * int(F without its leading zeros)) / 10 ^ len(F)`, and
returns the rendering of that integer; `base` is `0xffff * 2 ^ 208`. -/
theorem getTargetFromDiff_plain_rendering (idiff : Int) (I F : List Char) (pfx : HexPrefix)
    (hI : ∀ c ∈ I, c.isDigit = true) (hF : ∀ c ∈ F, c.isDigit = true) (hne : F ≠ [])
    (hid : idiff = (intOf I : Int)) :
    (targetProduct (.inverse idiff (String.mk I)) = .ok (base * (intOf I : Int)) ∧
      getTargetFromDiff (.inverse idiff (String.mk I)) pfx
        = formatTarget (base * (intOf I : Int)) pfx) ∧
    (targetProduct (.inverse idiff (String.mk (I ++ '.' :: F)))
        = .ok (base * (intOf I : Int)
            + base * (intOf (F.dropWhile (fun c => c == '0')) : Int) / (10 : Int) ^ F.length) ∧
      getTargetFromDiff (.inverse idiff (String.mk (I ++ '.' :: F))) pfx
        = formatTarget (base * (intOf I : Int)
            + base * (intOf (F.dropWhile (fun c => c == '0')) : Int) / (10 : Int) ^ F.length)
            pfx) ∧
    base = 0xffff * 2 ^ 208 := by
  have _ := hne
  have h1 := targetProduct_plain idiff I none hI (fun F h => by cases h) hid
  have h2 := targetProduct_plain idiff I (some F) hI
    (fun G h => by cases h; exact hF) hid
  simp only [plainText, plainTarget] at h1 h2
  refine ⟨⟨h1, ?_⟩, ⟨h2, ?_⟩, base_eq⟩
  · simp only [getTargetFromDiff, h1]
  · simp only [getTargetFromDiff, h2]

/-- C1, at difficulty 3: the reciprocal is rendered `0.33333333333333331` and
the product is `base * 33333333333333331 / 10 ^ 17`. -/
theorem getTargetFromDiff_plain_rendering_witness :
    targetProduct (.inverse 0 "0.33333333333333331")
        = .ok (base * 33333333333333331 / 10 ^ 17) ∧
      getTargetFromDiff (.inverse 0 "0.33333333333333331") .DontAdd
        = .ok "000000005554fffffffffe5195214cb84a302b38976f0bb3c20c7e3dd124190a" := by
  have h := (getTargetFromDiff_plain_rendering 0 ['0'] "33333333333333331".data .DontAdd
    (by decide) (by decide) (by decide) (by decide)).2.1
  refine ⟨?_, ?_⟩
  · rw [show ("0.33333333333333331" : String)
        = String.mk (['0'] ++ '.' :: "33333333333333331".data) from by decide, h.1]
    decide
  · rw [show ("0.33333333333333331" : String)
        = String.mk (['0'] ++ '.' :: "33333333333333331".data) from by decide, h.2]
    decide

/-- C2. At difficulty zero the result is 64 characters `f`, behind `0x` when
the prefix is requested; this is the numeral of `2 ^ 256 - 1`. -/
theorem getTargetFromDiff_zero :
    getTargetFromDiff .zero .DontAdd = .ok (String.mk (List.replicate 64 'f')) ∧
    getTargetFromDiff .zero .Add = .ok (String.mk ('0' :: 'x' :: List.replicate 64 'f')) ∧
    targetProduct .zero = .ok (2 ^ 256 - 1) := by
  refine ⟨by decide, by decide, ?_⟩
  simp only [targetProduct, maxTarget]
  norm_num

/-- C3, as stated, fails: at difficulty `1e-10` the reciprocal is rendered
`10000000000`, and the digits returned are 65, not 64. -/
theorem getTargetFromDiff_length_counterexample :
    getTargetFromDiff (.inverse 10000000000 "10000000000") .DontAdd
        = .ok "254098ff41c000000000000000000000000000000000000000000000000000000" ∧
      ("254098ff41c000000000000000000000000000000000000000000000000000000" : String).length
        ≠ 64 := by
  decide

/-- C3, amended. For a reciprocal in plain form (`I`, or `I.F`) truncated to
`int(I)` whose target is below `2 ^ 256`, the string returned has exactly 64
digit characters, behind `0x` when the prefix is requested. -/
theorem getTargetFromDiff_length (idiff : Int) (I : List Char) (oF : Option (List Char))
    (hI : ∀ c ∈ I, c.isDigit = true) (hF : ∀ F, oF = some F → ∀ c ∈ F, c.isDigit = true)
    (hid : idiff = (intOf I : Int)) (hlt : plainTarget I oF < 2 ^ 256) :
    ∃ digits : List Char, digits.length = 64 ∧
      getTargetFromDiff (.inverse idiff (String.mk (plainText I oF))) .DontAdd
        = .ok (String.mk digits) ∧
      getTargetFromDiff (.inverse idiff (String.mk (plainText I oF))) .Add
        = .ok (String.mk ('0' :: 'x' :: digits)) := by
  obtain ⟨digits, hlen, h1, h2⟩ := formatTarget_of_lt _ (plainTarget_nonneg I oF) hlt
  refine ⟨digits, hlen, ?_, ?_⟩
  · simp only [getTargetFromDiff, targetProduct_plain idiff I oF hI hF hid, h1]
  · simp only [getTargetFromDiff, targetProduct_plain idiff I oF hI hF hid, h2]

/-- C3, amended, at difficulty 3 (reciprocal `0.33333333333333331`). -/
theorem getTargetFromDiff_length_witness :
    ∃ digits : List Char, digits.length = 64 ∧
      getTargetFromDiff (.inverse 0 "0.33333333333333331") .DontAdd = .ok (String.mk digits) ∧
      getTargetFromDiff (.inverse 0 "0.33333333333333331") .Add
        = .ok (String.mk ('0' :: 'x' :: digits)) :=
  getTargetFromDiff_length 0 ['0'] (some "33333333333333331".data)
    (by decide) (by intro F h; cases h; decide) (by decide)
    (by
      have h : plainTarget ['0'] (some "33333333333333331".data)
          = base * 33333333333333331 / 10 ^ 17 := by decide
      rw [h, base]
      norm_num)

end dev

namespace dev

/-! ## Renderings in exponent form -/

theorem splitSign_of_head_ne (l : List Char) (h : l.head? ≠ some '-') :
    splitSign l = (false, l) := by
  cases l with
  | nil => rfl
  | cons c cs =>
    have : c ≠ '-' := by intro e; apply h; simp [e]
    simp [splitSign, this]

theorem parseDigits_ten_stop (D X : List Char) (hD : ∀ c ∈ D, c.isDigit = true) (acc : Nat) :
    parseDigits 10 (D ++ 'e' :: X) acc = .error .unexpectedContent := by
  induction D generalizing acc with
  | nil =>
    have : digitOf 10 'e' = none := by decide
    simp [parseDigits, this]
  | cons c cs ih =>
    have hc := digitOf_ten c (hD c (List.mem_cons_self _ _))
    simp only [List.cons_append, parseDigits, hc]
    exact ih (fun d hd => hD d (List.mem_cons_of_mem _ hd)) _

theorem cStr_digits_append (D X : List Char) (hD : ∀ c ∈ D, c.isDigit = true) :
    cStr (D ++ 'e' :: X) = D ++ 'e' :: cStr X := by
  induction D with
  | nil => simp [cStr, List.takeWhile_cons]
  | cons c cs ih =>
    have hc : c ≠ Char.ofNat 0 :=
      digit_ne c (Char.ofNat 0) (hD c (List.mem_cons_self _ _)) (Or.inl (by decide))
    have ih' := ih (fun d hd => hD d (List.mem_cons_of_mem _ hd))
    unfold cStr at ih' ⊢
    simp only [List.cons_append, List.takeWhile_cons, bne_iff_ne, ne_eq, hc, not_false_eq_true,
      decide_True, if_true, ih']

theorem head_digits_append (D X : List Char) (hD : ∀ c ∈ D, c.isDigit = true)
    (h0 : D.head? ≠ some '0') :
    (D ++ 'e' :: X).head? ≠ some '-' ∧ (D ++ 'e' :: X).head? ≠ some '0' := by
  cases D with
  | nil => simp
  | cons c cs =>
    have hc : c ≠ '-' := digit_ne c '-' (hD c (List.mem_cons_self _ _)) (Or.inl (by decide))
    have h0' : c ≠ '0' := by intro e; apply h0; simp [e]
    simp [hc, h0']

theorem ofString_digits_then_e (D X : List Char) (hD : ∀ c ∈ D, c.isDigit = true)
    (h0 : D.head? ≠ some '0') :
    BigInteger.ofString (String.mk (D ++ 'e' :: X)) = .error .unexpectedContent := by
  have hh := head_digits_append D (cStr X) hD h0
  simp only [BigInteger.ofString, BigInteger.ofChars, cStr_digits_append D X hD,
    splitSign_of_head_ne _ hh.1, splitRadix_of_head_ne _ hh.2, parseDigits_ten_stop D _ hD 0]

theorem dropWhile_zero_append (F X : List Char) :
    (F ++ 'e' :: X).dropWhile (fun c => c == '0')
      = F.dropWhile (fun c => c == '0') ++ 'e' :: X := by
  induction F with
  | nil => simp [List.dropWhile_cons]
  | cons c cs ih =>
    by_cases h : c = '0'
    · simpa [List.dropWhile_cons, h] using ih
    · simp [List.dropWhile_cons, h]

/-- When the digits behind the `.` are followed by an exponent, the parser
refuses the fractional part. -/
theorem targetProduct_exponent (idiff : Int) (pre F X : List Char) (hpre : '.' ∉ pre)
    (hF : ∀ c ∈ F, c.isDigit = true) :
    targetProduct (.inverse idiff (String.mk (pre ++ '.' :: (F ++ 'e' :: X))))
      = .error .unexpectedContent := by
  have hdrop : (pre ++ '.' :: (F ++ 'e' :: X)).drop (pre.length + 1) = F ++ 'e' :: X := by
    rw [show pre ++ '.' :: (F ++ 'e' :: X) = (pre ++ ['.']) ++ (F ++ 'e' :: X) by simp]
    rw [List.drop_append_of_le_length (by simp)]
    simp
  simp only [targetProduct, find_append '.' pre _ hpre, hdrop, dropWhile_zero_append]
  rw [ofString_digits_then_e _ X (dropWhile_zero_digits F hF) (dropWhile_zero_head F)]

/-! ## Negative products -/

theorem foldl_digits_lt (l : List Char) (hl : ∀ c ∈ l, c.isDigit = true) (acc : Nat) :
    l.foldl (fun a c => 10 * a + (c.toNat - 48)) acc < (acc + 1) * 10 ^ l.length := by
  induction l generalizing acc with
  | nil => simp
  | cons c cs ih =>
    have hc := (isDigit_iff c).1 (hl c (List.mem_cons_self _ _))
    have h := ih (fun d hd => hl d (List.mem_cons_of_mem _ hd)) (10 * acc + (c.toNat - 48))
    rw [List.foldl_cons, List.length_cons, pow_succ]
    calc List.foldl (fun a c => 10 * a + (c.toNat - 48)) (10 * acc + (c.toNat - 48)) cs
        < (10 * acc + (c.toNat - 48) + 1) * 10 ^ cs.length := h
      _ ≤ ((acc + 1) * 10) * 10 ^ cs.length := by
          apply Nat.mul_le_mul_right
          omega
      _ = (acc + 1) * (10 ^ cs.length * 10) := by ring

theorem intOf_lt_pow (l : List Char) (hl : ∀ c ∈ l, c.isDigit = true) :
    intOf l < 10 ^ l.length := by
  simpa [intOf] using foldl_digits_lt l hl 0

theorem intOf_dropWhile_zero (F : List Char) :
    intOf (F.dropWhile (fun c => c == '0')) = intOf F := by
  induction F with
  | nil => rfl
  | cons c cs ih =>
    by_cases h : c = '0'
    · subst h
      have h0 : intOf ('0' :: cs) = intOf cs := by
        simp only [intOf, List.foldl_cons]
        rfl
      rw [h0, ← ih]
      simp [List.dropWhile_cons]
    · simp [List.dropWhile_cons, h]

/-- The fractional contribution is below `base`. -/
theorem fraction_lt_base (F : List Char) (hF : ∀ c ∈ F, c.isDigit = true) :
    base * (intOf (F.dropWhile (fun c => c == '0')) : Int) / (10 : Int) ^ F.length < base := by
  rw [intOf_dropWhile_zero]
  have h := intOf_lt_pow F hF
  have hb : (0 : Int) < base := by unfold base; norm_num
  apply Int.ediv_lt_of_lt_mul (by positivity)
  apply mul_lt_mul_of_pos_left _ hb
  exact_mod_cast h

theorem formatTarget_neg (p : Int) (h : p < 0) (pfx : HexPrefix) :
    formatTarget p pfx = .error .negativeHex := by
  simp [formatTarget, BigInteger.strHex, h]

/-! ## Claims on failures of `getTargetFromDiff` -/

/-- C4. The claim fails on the code: when the reciprocal is rendered in
exponent form with a fractional mantissa (`I.FeX`, as for difficulty 100000),
the text behind the `.` keeps the exponent, the parser refuses it and
`getTargetFromDiff` raises instead of returning a string. -/
theorem getTargetFromDiff_exponent_form_fails (idiff : Int) (I F X : List Char)
    (pfx : HexPrefix) (hI : ∀ c ∈ I, c.isDigit = true) (hF : ∀ c ∈ F, c.isDigit = true) :
    getTargetFromDiff (.inverse idiff (String.mk (I ++ '.' :: (F ++ 'e' :: X)))) pfx
      = .error .unexpectedContent := by
  simp only [getTargetFromDiff, targetProduct_exponent idiff I F X (dot_not_mem_digits I hI) hF]

/-- C4, at difficulty 100000: the reciprocal is rendered
`1.0000000000000001e-05`. -/
theorem getTargetFromDiff_exponent_form_fails_witness :
    getTargetFromDiff (.inverse 0 "1.0000000000000001e-05") .Add
      = .error .unexpectedContent :=
  getTargetFromDiff_exponent_form_fails 0 ['1'] "0000000000000001".data "-05".data .Add
    (by decide) (by decide)

/-- C5, as stated, fails: difficulty -3 (reciprocal `-0.33333333333333331`,
truncated to 0) returns the target of difficulty 3, and an infinite difficulty
(reciprocal `0`) returns the all-zero target. -/
theorem getTargetFromDiff_invalid_counterexample :
    getTargetFromDiff (.inverse 0 "-0.33333333333333331") .DontAdd
        = .ok "000000005554fffffffffe5195214cb84a302b38976f0bb3c20c7e3dd124190a" ∧
      getTargetFromDiff (.inverse 0 "0") .DontAdd
        = .ok "0000000000000000000000000000000000000000000000000000000000000000" := by
  decide

/-- C5, amended. A negative difficulty whose reciprocal is rendered in plain
form `-I` or `-I.F` with `int(I) ≥ 1` (truncated to `-int(I)`) makes
`getTargetFromDiff` fail, because the negative product cannot be printed in
base 16. -/
theorem getTargetFromDiff_negative_fails (idiff : Int) (I : List Char)
    (oF : Option (List Char)) (pfx : HexPrefix)
    (hI : ∀ c ∈ I, c.isDigit = true) (hF : ∀ F, oF = some F → ∀ c ∈ F, c.isDigit = true)
    (hid : idiff = -(intOf I : Int)) (h1 : 1 ≤ intOf I) :
    getTargetFromDiff (.inverse idiff (String.mk ('-' :: plainText I oF))) pfx
      = .error .negativeHex := by
  have hb : (0 : Int) < base := by unfold base; norm_num
  have hI1 : (1 : Int) ≤ (intOf I : Int) := by exact_mod_cast h1
  have hprod : base * idiff ≤ -base := by
    rw [hid]
    nlinarith
  cases oF with
  | none =>
    simp only [getTargetFromDiff, plainText,
      targetProduct_no_dot idiff ('-' :: I) (dot_not_mem_minus_digits I hI)]
    exact formatTarget_neg _ (by omega) pfx
  | some F =>
    have h := targetProduct_fraction idiff ('-' :: I) F (dot_not_mem_minus_digits I hI)
      (hF F rfl)
    simp only [List.cons_append] at h
    simp only [getTargetFromDiff, plainText, h]
    have hlt := fraction_lt_base F (hF F rfl)
    exact formatTarget_neg _ (by omega) pfx

/-- C5, amended, at difficulty -1 (reciprocal `-1`). -/
theorem getTargetFromDiff_negative_fails_witness :
    getTargetFromDiff (.inverse (-1) "-1") .DontAdd = .error .negativeHex :=
  getTargetFromDiff_negative_fails (-1) ['1'] none .DontAdd
    (by decide) (by intro F h; cases h) (by decide) (by decide)

end dev

namespace dev

/-! ## Reading the returned digits back -/

theorem isHexDigit_iff (c : Char) :
    isHexDigit c = true ↔
      (48 ≤ c.toNat ∧ c.toNat ≤ 57) ∨ (97 ≤ c.toNat ∧ c.toNat ≤ 102)
        ∨ (65 ≤ c.toNat ∧ c.toNat ≤ 70) := by
  simp only [isHexDigit, Bool.or_eq_true, Bool.and_eq_true, decide_eq_true_eq, isDigit_iff]
  tauto

theorem hexDigitValue_eq (c : Char) :
    hexDigitValue c =
      if 48 ≤ c.toNat ∧ c.toNat ≤ 57 then c.toNat - 48
      else if 97 ≤ c.toNat then c.toNat - 87 else c.toNat - 55 := by
  unfold hexDigitValue
  by_cases h : c.isDigit = true
  · rw [if_pos h, if_pos ((isDigit_iff c).1 h)]
  · rw [if_neg h, if_neg (fun h' => h ((isDigit_iff c).2 h'))]

theorem digitOf_sixteen (c : Char) (hc : isHexDigit c = true) :
    digitOf 16 c = some (hexDigitValue c) := by
  have h := (isHexDigit_iff c).1 hc
  rw [hexDigitValue_eq]
  simp only [digitOf]
  split_ifs <;> first | rfl | omega | (congr 1; omega)

theorem hexDigitValue_hexDigitChar (v : Nat) (hv : v < 16) :
    hexDigitValue (hexDigitChar v).toLower = v := by
  interval_cases v <;> decide

theorem foldl_hex_hexCore (fuel : Nat) :
    ∀ (n : Nat) (acc : List Char), n < fuel →
      (to_lower (hexCore fuel n acc)).foldl (fun a c => 16 * a + hexDigitValue c) 0
        = (to_lower acc).foldl (fun a c => 16 * a + hexDigitValue c) n := by
  induction fuel with
  | zero => intro n acc h; omega
  | succ fuel ih =>
    intro n acc hn
    have hmod := hexDigitValue_hexDigitChar (n % 16) (Nat.mod_lt _ (by norm_num))
    unfold hexCore
    by_cases h : n / 16 = 0
    · rw [if_pos h]
      have hlt : n < 16 := by
        by_contra hge
        have : 0 < n / 16 := Nat.div_pos (by omega) (by norm_num)
        omega
      simp only [to_lower, List.map_cons, List.foldl_cons, hmod]
      rw [Nat.mod_eq_of_lt hlt]
      simp
    · rw [if_neg h]
      have hlt : n / 16 < fuel := by
        have : n / 16 < n := Nat.div_lt_self (by omega) (by norm_num)
        omega
      rw [ih (n / 16) _ hlt]
      simp only [to_lower, List.map_cons, List.foldl_cons, hmod]
      rw [Nat.div_add_mod]

theorem foldl_hex_replicate_zero (k : Nat) (s : List Char) :
    (to_lower (List.replicate k '0' ++ s)).foldl (fun a c => 16 * a + hexDigitValue c) 0
      = (to_lower s).foldl (fun a c => 16 * a + hexDigitValue c) 0 := by
  induction k with
  | zero => simp
  | succ k ih =>
    rw [List.replicate_succ, List.cons_append]
    simp only [to_lower, List.map_cons, List.foldl_cons] at ih ⊢
    have : 16 * 0 + hexDigitValue ('0' : Char).toLower = 0 := by decide
    rw [this]
    exact ih

/-- The digits returned for `n` denote `n` in base 16. -/
theorem hexOf_targetDigits (n : Nat) : hexOf (targetDigits n) = n := by
  unfold hexOf targetDigits setw
  split_ifs
  · rw [foldl_hex_replicate_zero, foldl_hex_hexCore (n + 1) n [] (by omega)]
    rfl
  · rw [foldl_hex_hexCore (n + 1) n [] (by omega)]
    rfl

/-- Rendering of a non-negative product. -/
theorem formatTarget_nonneg (p : Int) (h0 : 0 ≤ p) :
    formatTarget p .DontAdd = .ok (String.mk (targetDigits p.toNat)) ∧
      formatTarget p .Add = .ok (String.mk ('0' :: 'x' :: targetDigits p.toNat)) := by
  have hneg : ¬ p < 0 := by omega
  constructor
  · simp [formatTarget, BigInteger.strHex, hneg, targetDigits]
  · simp [formatTarget, BigInteger.strHex, hneg, targetDigits, to_lower]

/-! ## The target as a floor -/

/-- The product of a plain rendering is the floor of `base` times the rational
number that the rendering denotes. -/
theorem plainTarget_eq_floor (I : List Char) (oF : Option (List Char)) :
    plainTarget I oF = ⌊(base : ℚ) * plainValue I oF⌋ := by
  cases oF with
  | none =>
    simp only [plainTarget, plainValue]
    rw [show (base : ℚ) * (intOf I : ℚ) = ((base * (intOf I : Int) : Int) : ℚ) by push_cast; ring]
    rw [Int.floor_intCast]
  | some F =>
    simp only [plainTarget, plainValue, intOf_dropWhile_zero]
    have h : (base : ℚ) * ((intOf I : ℚ) + (intOf F : ℚ) / (10 : ℚ) ^ F.length)
        = ((base * (intOf I : Int) : Int) : ℚ)
          + ((base * (intOf F : Int) : Int) : ℚ) / (((10 ^ F.length : Nat) : ℚ)) := by
      push_cast
      ring
    rw [h, Int.floor_int_add, Rat.floor_intCast_div_natCast]
    push_cast
    rfl

end dev

namespace dev

/-! ## `getHashesToTarget` on prefixed hexadecimal numerals -/

theorem parseDigits_sixteen (l : List Char) (hl : ∀ c ∈ l, isHexDigit c = true) (acc : Nat) :
    parseDigits 16 l acc = .ok (l.foldl (fun a c => 16 * a + hexDigitValue c) acc) := by
  induction l generalizing acc with
  | nil => rfl
  | cons c cs ih =>
    have hc := digitOf_sixteen c (hl c (List.mem_cons_self _ _))
    simp only [parseDigits, hc, List.foldl_cons]
    rw [ih (fun d hd => hl d (List.mem_cons_of_mem _ hd)), Nat.mul_comm]

theorem cStr_of_not_mem (l : List Char) (h : Char.ofNat 0 ∉ l) : cStr l = l := by
  unfold cStr
  rw [List.takeWhile_eq_self_iff]
  intro c hc
  have : c ≠ Char.ofNat 0 := fun e => h (e ▸ hc)
  simpa using this

theorem nul_not_hex (l : List Char) (hl : ∀ c ∈ l, isHexDigit c = true) :
    Char.ofNat 0 ∉ l :=
  fun h => absurd (hl _ h) (by decide)

/-- A `0x` followed by hexadecimal digits is parsed as their value in base
16. -/
theorem ofString_prefixed_hex (h : List Char) (hh : ∀ c ∈ h, isHexDigit c = true) :
    BigInteger.ofString (String.mk ('0' :: 'x' :: h)) = .ok (hexOf h : Int) := by
  have hnul : Char.ofNat 0 ∉ '0' :: 'x' :: h := by
    intro hm
    rcases List.mem_cons.1 hm with e | hm
    · exact absurd e (by decide)
    · rcases List.mem_cons.1 hm with e | hm
      · exact absurd e (by decide)
      · exact nul_not_hex h hh hm
  have hsign : splitSign ('0' :: 'x' :: h) = (false, '0' :: 'x' :: h) :=
    splitSign_of_head_ne _ (by simp)
  have hradix : splitRadix ('0' :: 'x' :: h) = (16, h) := by
    simp [splitRadix]
  simp only [BigInteger.ofString, BigInteger.ofChars, cStr_of_not_mem _ hnul, hsign, hradix,
    parseDigits_sixteen h hh 0]
  rfl

/-- The quotient computed on a `0x` numeral with a positive value. -/
theorem getHashesToTarget_prefixed (h : List Char) (hh : ∀ c ∈ h, isHexDigit c = true)
    (hpos : 0 < hexOf h) :
    getHashesToTarget (String.mk ('0' :: 'x' :: h)) = .ok (dividend / (hexOf h : Int)) := by
  have hne : ((hexOf h : Nat) : Int) ≠ 0 := by exact_mod_cast (Nat.pos_iff_ne_zero.1 hpos)
  have hdiv : dividend.tdiv (hexOf h : Int) = dividend / (hexOf h : Int) :=
    Int.tdiv_eq_ediv (by unfold dividend; norm_num) (by positivity)
  simp only [getHashesToTarget, ofString_prefixed_hex h hh, BigInteger.divide, if_neg hne, hdiv]

/-! ## Claims on `getHashesToTarget` -/

/-- C7, as stated, fails: at difficulty 1 the quotient is `2 ^ 32`, far from
1, and at difficulty 123456.789 (reciprocal `8.1000000737100001e-06`) the
forward conversion raises, so that there is no quotient. -/
theorem roundTrip_counterexample :
    roundTrip (.inverse 1 "1") = .ok 4294967296 ∧
      ¬ ((4294967296 : ℚ) ≤ 1 * (1 + 1 / 1000)) ∧
      roundTrip (.inverse 0 "8.1000000737100001e-06") = .error .unexpectedContent := by
  refine ⟨by decide, by norm_num, by decide⟩

/-- C7, amended. For the difficulties 1, 2, 1000 and 0.5 (reciprocals `1`,
`0.5`, `0.001`, `2`) the quotient computed by `getHashesToTarget` on the
prefixed target is within relative tolerance `1e-3` of `d * 2 ^ 32`; at
difficulty 1 it is exactly `2 ^ 32`. -/
theorem roundTrip_scaled :
    (∃ q : Int, roundTrip (.inverse 1 "1") = .ok q ∧ q = 2 ^ 32 ∧
        |(q : ℚ) - 1 * 2 ^ 32| ≤ 1 * 2 ^ 32 / 1000) ∧
      (∃ q : Int, roundTrip (.inverse 0 "0.5") = .ok q ∧
        |(q : ℚ) - 2 * 2 ^ 32| ≤ 2 * 2 ^ 32 / 1000) ∧
      (∃ q : Int, roundTrip (.inverse 0 "0.001") = .ok q ∧
        |(q : ℚ) - 1000 * 2 ^ 32| ≤ 1000 * 2 ^ 32 / 1000) ∧
      (∃ q : Int, roundTrip (.inverse 2 "2") = .ok q ∧
        |(q : ℚ) - (1 / 2) * 2 ^ 32| ≤ (1 / 2) * 2 ^ 32 / 1000) := by
  refine ⟨⟨4294967296, by decide, by norm_num, by norm_num⟩,
    ⟨8589934592, by decide, by norm_num⟩,
    ⟨4294967296000, by decide, by norm_num⟩,
    ⟨2147483648, by decide, by norm_num⟩⟩

/-- C8, as stated, fails: without the prefix `10` is read as ten, not as the
hexadecimal numeral of sixteen, and the 64 digits returned for difficulty 1
are read as an octal numeral and refused at the first `f`. -/
theorem getHashesToTarget_unprefixed_counterexample :
    getHashesToTarget "10" = .ok (dividend / 10) ∧
      getHashesToTarget "10" ≠ .ok (dividend / 16) ∧
      getTargetFromDiff (.inverse 1 "1") .DontAdd
        = .ok "00000000ffff0000000000000000000000000000000000000000000000000000" ∧
      getHashesToTarget "00000000ffff0000000000000000000000000000000000000000000000000000"
        = .error .unexpectedContent := by
  decide

/-- C8, amended. For every target string made of `0x` and hexadecimal digits
that denote a positive integer divisor below `2 ^ 256`, `getHashesToTarget`
reads the digits in base 16 and computes the floor of `dividend / divisor`,
where `dividend` is `0xffff * 2 ^ 240`. -/
theorem getHashesToTarget_prefixed_hex (h : List Char) (hh : ∀ c ∈ h, isHexDigit c = true)
    (hpos : 0 < hexOf h) (_hlt : hexOf h < 2 ^ 256) :
    getHashesToTarget (String.mk ('0' :: 'x' :: h)) = .ok (dividend / (hexOf h : Int)) ∧
      dividend = 0xffff * 2 ^ 240 :=
  ⟨getHashesToTarget_prefixed h hh hpos, by unfold dividend; norm_num⟩

/-- C8, amended, on the target of difficulty 1. -/
theorem getHashesToTarget_prefixed_hex_witness :
    getHashesToTarget "0x00000000ffff0000000000000000000000000000000000000000000000000000"
        = .ok (dividend /
          (hexOf "00000000ffff0000000000000000000000000000000000000000000000000000".data : Int)) ∧
      dividend = 0xffff * 2 ^ 240 :=
  getHashesToTarget_prefixed_hex
    "00000000ffff0000000000000000000000000000000000000000000000000000".data
    (by decide) (by decide)
    (by
      have h : hexOf "00000000ffff0000000000000000000000000000000000000000000000000000".data
          = 0xffff0000000000000000000000000000000000000000000000000000 := by decide
      rw [h]
      norm_num)

/-- C9. A target string that the parser reads as zero makes
`getHashesToTarget` fail with the division-by-zero error; no number is
returned. -/
theorem getHashesToTarget_zero (s : String) (h : BigInteger.ofString s = .ok 0) :
    getHashesToTarget s = .error .divisionByZero := by
  simp [getHashesToTarget, h, BigInteger.divide]

/-- C9, on the all-zero string of 64 digits, without and with `0x`. -/
theorem getHashesToTarget_zero_witness :
    getHashesToTarget "0000000000000000000000000000000000000000000000000000000000000000"
        = .error .divisionByZero ∧
      getHashesToTarget "0x0000000000000000000000000000000000000000000000000000000000000000"
        = .error .divisionByZero :=
  ⟨getHashesToTarget_zero _ (by decide), getHashesToTarget_zero _ (by decide)⟩

end dev

namespace dev

/-! ## Characters outside the hexadecimal alphabet -/

theorem digitOf_of_not_hex (radix : Nat) (c : Char) (hc : isHexDigit c = false) :
    digitOf radix c = none := by
  have h : ¬ ((48 ≤ c.toNat ∧ c.toNat ≤ 57) ∨ (97 ≤ c.toNat ∧ c.toNat ≤ 102)
      ∨ (65 ≤ c.toNat ∧ c.toNat ≤ 70)) := by
    intro h
    rw [(isHexDigit_iff c).2 h] at hc
    exact absurd hc (by decide)
  have h1 : ¬ (48 ≤ c.toNat ∧ c.toNat ≤ 57) := fun h' => h (Or.inl h')
  have h2 : ¬ (97 ≤ c.toNat ∧ c.toNat ≤ 102) := fun h' => h (Or.inr (Or.inl h'))
  have h3 : ¬ (65 ≤ c.toNat ∧ c.toNat ≤ 70) := fun h' => h (Or.inr (Or.inr h'))
  simp only [digitOf, if_neg h1, if_neg h2, if_neg h3]
  rw [if_pos (Nat.le_succ radix)]

theorem parseDigits_of_not_hex (radix : Nat) (l : List Char)
    (h : ∃ c ∈ l, isHexDigit c = false) (acc : Nat) :
    parseDigits radix l acc = .error .unexpectedContent := by
  induction l generalizing acc with
  | nil =>
    obtain ⟨c, hc, _⟩ := h
    exact absurd hc (List.not_mem_nil c)
  | cons x xs ih =>
    obtain ⟨c, hc, hbad⟩ := h
    unfold parseDigits
    cases hx : digitOf radix x with
    | none => rfl
    | some v =>
      simp only
      apply ih
      rcases List.mem_cons.1 hc with e | hmem
      · subst e
        rw [digitOf_of_not_hex radix c hbad] at hx
        exact absurd hx (by simp)
      · exact ⟨c, hmem, hbad⟩

theorem splitSign_snd (s : List Char) : (splitSign s).2 = dropSign s := by
  cases s with
  | nil => rfl
  | cons c t =>
    by_cases h : c = '-'
    · simp [splitSign, dropSign, h]
    · simp [splitSign, dropSign, h]

/-- Whatever radix is selected, a character outside the hexadecimal alphabet
behind the radix prefix reaches the digit loop or follows the characters that
do. -/
theorem parseDigits_splitRadix (t : List Char)
    (h : ∃ c ∈ dropHexPrefix t, isHexDigit c = false) :
    parseDigits (splitRadix t).1 (splitRadix t).2 0 = .error .unexpectedContent := by
  apply parseDigits_of_not_hex
  match t with
  | [] => simp [dropHexPrefix] at h
  | [c] =>
    have : (splitRadix [c]).2 = [c] := by
      by_cases hc : c = '0' <;> simp [splitRadix, hc]
    rw [this]
    simpa [dropHexPrefix] using h
  | c :: d :: u =>
    by_cases hc : c = '0'
    · by_cases hd : d = 'x' ∨ d = 'X'
      · have h1 : (splitRadix (c :: d :: u)).2 = u := by simp [splitRadix, hc, hd]
        have h2 : dropHexPrefix (c :: d :: u) = u := by simp [dropHexPrefix, hc, hd]
        rw [h1]
        rwa [h2] at h
      · have h1 : (splitRadix (c :: d :: u)).2 = c :: d :: u := by simp [splitRadix, hc, hd]
        have h2 : dropHexPrefix (c :: d :: u) = c :: d :: u := by
          simp [dropHexPrefix, hc, hd]
        rw [h1]
        rwa [h2] at h
    · have h1 : (splitRadix (c :: d :: u)).2 = c :: d :: u := by simp [splitRadix, hc]
      have h2 : dropHexPrefix (c :: d :: u) = c :: d :: u := by simp [dropHexPrefix, hc]
      rw [h1]
      rwa [h2] at h

theorem ofChars_of_not_hex (s : List Char)
    (h : ∃ c ∈ dropHexPrefix (dropSign s), isHexDigit c = false) :
    BigInteger.ofChars s = .error .unexpectedContent := by
  rw [← splitSign_snd] at h
  have := parseDigits_splitRadix (splitSign s).2 h
  simp only [BigInteger.ofChars, this]

/-- C10, as stated, fails: the empty string is read as zero and is rejected by
the division, not by the parser; and with a leading `-`, an upper case `0X` or
a NUL before the offending character, a string with a character outside the
hexadecimal alphabet yields a number. -/
theorem getHashesToTarget_format_counterexample :
    getHashesToTarget "" = .error .divisionByZero ∧
      getHashesToTarget "-5" = .ok (-(dividend / 5)) ∧
      getHashesToTarget "0X5" = .ok (dividend / 5) ∧
      getHashesToTarget (String.mk ['5', Char.ofNat 0, 'z']) = .ok (dividend / 5) := by
  decide

/-- C10, amended. For every target string without a NUL character that, behind
an optional leading `-` and an optional `0x` or `0X`, contains a character
outside the hexadecimal alphabet, `getHashesToTarget` fails with the parser's
format error and returns no value; the empty string is read as the number zero
and fails with the division-by-zero error. -/
theorem getHashesToTarget_format (s : String) (hnul : Char.ofNat 0 ∉ s.data)
    (h : ∃ c ∈ dropHexPrefix (dropSign s.data), isHexDigit c = false) :
    getHashesToTarget s = .error .unexpectedContent ∧
      getHashesToTarget "" = .error .divisionByZero := by
  refine ⟨?_, by decide⟩
  simp only [getHashesToTarget, BigInteger.ofString, cStr_of_not_mem _ hnul,
    ofChars_of_not_hex _ h]

/-- C10, amended, on the strings `zz` and `0xzz`. -/
theorem getHashesToTarget_format_witness :
    (getHashesToTarget "zz" = .error .unexpectedContent ∧
        getHashesToTarget "" = .error .divisionByZero) ∧
      (getHashesToTarget "0xzz" = .error .unexpectedContent ∧
        getHashesToTarget "" = .error .divisionByZero) :=
  ⟨getHashesToTarget_format "zz" (by decide) ⟨'z', by decide, by decide⟩,
    getHashesToTarget_format "0xzz" (by decide) ⟨'z', by decide, by decide⟩⟩

end dev

namespace dev

/-! ## The characters of the returned digits -/

theorem hexCore_mem (fuel : Nat) :
    ∀ (n : Nat) (acc : List Char) (c : Char), c ∈ hexCore fuel n acc →
      c ∈ acc ∨ ∃ v, v < 16 ∧ c = hexDigitChar v := by
  induction fuel with
  | zero => intro n acc c hc; exact Or.inl hc
  | succ fuel ih =>
    intro n acc c hc
    unfold hexCore at hc
    have hv : n % 16 < 16 := Nat.mod_lt _ (by norm_num)
    by_cases h : n / 16 = 0
    · rw [if_pos h] at hc
      rcases List.mem_cons.1 hc with e | hm
      · exact Or.inr ⟨n % 16, hv, e⟩
      · exact Or.inl hm
    · rw [if_neg h] at hc
      rcases ih _ _ c hc with hm | hex
      · rcases List.mem_cons.1 hm with e | hm'
        · exact Or.inr ⟨n % 16, hv, e⟩
        · exact Or.inl hm'
      · exact Or.inr hex

theorem isLowerHexDigit_hexDigitChar (v : Nat) (hv : v < 16) :
    isLowerHexDigit (hexDigitChar v).toLower = true := by
  interval_cases v <;> decide

theorem targetDigits_lower (n : Nat) : ∀ c ∈ targetDigits n, isLowerHexDigit c = true := by
  intro c hc
  unfold targetDigits to_lower at hc
  obtain ⟨b, hb, rfl⟩ := List.mem_map.1 hc
  have hb' : b = '0' ∨ b ∈ hexCore (n + 1) n [] := by
    unfold setw at hb
    split_ifs at hb
    · rcases List.mem_append.1 hb with h | h
      · exact Or.inl (List.eq_of_mem_replicate h)
      · exact Or.inr h
    · exact Or.inr hb
  rcases hb' with rfl | hb'
  · decide
  · rcases hexCore_mem _ _ _ _ hb' with h | ⟨v, hv, rfl⟩
    · exact absurd h (List.not_mem_nil _)
    · exact isLowerHexDigit_hexDigitChar v hv

theorem isHexDigit_of_lower (c : Char) (h : isLowerHexDigit c = true) : isHexDigit c = true := by
  unfold isLowerHexDigit at h
  unfold isHexDigit
  rw [h]
  rfl

/-- A call that returns has a non-negative product, and returns its digits. -/
theorem getTargetFromDiff_ok (d : Difficulty) (pfx : HexPrefix) (t : String)
    (h : getTargetFromDiff d pfx = .ok t) :
    ∃ p : Int, 0 ≤ p ∧ targetProduct d = .ok p := by
  unfold getTargetFromDiff at h
  cases hp : targetProduct d with
  | error e => rw [hp] at h; exact absurd h (by simp)
  | ok p =>
    refine ⟨p, ?_, rfl⟩
    by_contra hneg
    rw [hp] at h
    simp only at h
    rw [formatTarget_neg p (by omega) pfx] at h
    exact absurd h (by simp)

theorem getTargetFromDiff_of_product (d : Difficulty) (p : Int) (h0 : 0 ≤ p)
    (hp : targetProduct d = .ok p) :
    getTargetFromDiff d .DontAdd = .ok (String.mk (targetDigits p.toNat)) ∧
      getTargetFromDiff d .Add = .ok (String.mk ('0' :: 'x' :: targetDigits p.toNat)) := by
  simp only [getTargetFromDiff, hp]
  exact formatTarget_nonneg p h0

/-! ## The digits as a padded numeral -/

theorem toLower_hexDigitChar (v : Nat) (hv : v < 16) :
    (hexDigitChar v).toLower = Nat.digitChar v := by
  interval_cases v <;> decide

theorem to_lower_hexCore (fuel : Nat) :
    ∀ (n : Nat) (acc : List Char),
      to_lower (hexCore fuel n acc) = Nat.toDigitsCore 16 fuel n (to_lower acc) := by
  induction fuel with
  | zero => intro n acc; rfl
  | succ fuel ih =>
    intro n acc
    have hv := toLower_hexDigitChar (n % 16) (Nat.mod_lt _ (by norm_num))
    unfold hexCore Nat.toDigitsCore
    by_cases h : n / 16 = 0
    · simp only [h, if_true, to_lower, List.map_cons, hv]
    · simp only [h, if_false]
      rw [ih]
      simp only [to_lower, List.map_cons, hv]

/-- The digits returned for `n` are the base 16 numeral of `n`, in lower case,
behind the zeros that fill the width 64. -/
theorem targetDigits_eq (n : Nat) :
    targetDigits n
      = List.replicate (64 - (Nat.toDigits 16 n).length) '0' ++ Nat.toDigits 16 n := by
  have hlow : to_lower (hexCore (n + 1) n []) = Nat.toDigits 16 n := by
    rw [to_lower_hexCore]
    rfl
  have hlen : (hexCore (n + 1) n []).length = (Nat.toDigits 16 n).length := by
    rw [← hlow, to_lower_length]
  unfold targetDigits setw
  split_ifs with h
  · rw [hlen]
    simp only [to_lower, List.map_append, List.map_replicate] at hlow ⊢
    rw [hlow]
    rfl
  · rw [hlow]
    have : 64 - (Nat.toDigits 16 n).length = 0 := by omega
    rw [this]
    rfl

theorem targetDigits_length (n : Nat) (h : n < 2 ^ 256) : (targetDigits n).length = 64 := by
  unfold targetDigits
  rw [to_lower_length]
  apply setw_length
  have hp : n < 16 ^ 64 := by
    have : (16 : Nat) ^ 64 = 2 ^ 256 := by norm_num
    omega
  simpa using hexCore_length_le (n + 1) n 64 [] (by omega) hp

end dev

namespace dev

/-! ## Claims on the canonical form of the target -/

/-- C11. When `getTargetFromDiff` returns for a difficulty (under either
prefix mode), it returns under both: the result with `HexPrefix::Add` is `0x`
followed by the result with `HexPrefix::DontAdd`, and the latter consists of
the characters `0-9` and `a-f` only. -/
theorem getTargetFromDiff_canonical (d : Difficulty) (pfx : HexPrefix) (t0 : String)
    (h : getTargetFromDiff d pfx = .ok t0) :
    ∃ t : List Char,
      getTargetFromDiff d .DontAdd = .ok (String.mk t) ∧
        getTargetFromDiff d .Add = .ok (String.mk ('0' :: 'x' :: t)) ∧
        ∀ c ∈ t, isLowerHexDigit c = true := by
  obtain ⟨p, h0, hp⟩ := getTargetFromDiff_ok d pfx t0 h
  obtain ⟨h1, h2⟩ := getTargetFromDiff_of_product d p h0 hp
  exact ⟨targetDigits p.toNat, h1, h2, targetDigits_lower p.toNat⟩

/-- C11, at difficulty 3 (reciprocal `0.33333333333333331`). -/
theorem getTargetFromDiff_canonical_witness :
    ∃ t : List Char,
      getTargetFromDiff (.inverse 0 "0.33333333333333331") .DontAdd = .ok (String.mk t) ∧
        getTargetFromDiff (.inverse 0 "0.33333333333333331") .Add
          = .ok (String.mk ('0' :: 'x' :: t)) ∧
        ∀ c ∈ t, isLowerHexDigit c = true :=
  getTargetFromDiff_canonical (.inverse 0 "0.33333333333333331") .Add
    "0x000000005554fffffffffe5195214cb84a302b38976f0bb3c20c7e3dd124190a" (by decide)

/-- C12. At difficulty 1 (reciprocal `1`) the result is the rendering of
`base` on 64 digits: `00000000ffff` followed by 52 characters `0`. -/
theorem getTargetFromDiff_one :
    getTargetFromDiff (.inverse 1 "1") .DontAdd
        = .ok (String.mk ("00000000ffff".data ++ List.replicate 52 '0')) ∧
      targetProduct (.inverse 1 "1") = .ok base ∧
      ("00000000ffff".data ++ List.replicate 52 '0').length = 64 := by
  decide

/-- C13. For a rendering `I.F` of decimal digits (truncated to `int(I)`), the
product computed by `getTargetFromDiff` is the floor of `base * r` for the
rational value `r = int(I) + int(F) / 10 ^ len(F)` of the rendering.  Stripping
the leading zeros of `F` keeps the numerator, the empty string is parsed as
zero, and an all-zero `F` contributes nothing. -/
theorem getTargetFromDiff_value_preserving (idiff : Int) (I F : List Char) (pfx : HexPrefix)
    (hI : ∀ c ∈ I, c.isDigit = true) (hF : ∀ c ∈ F, c.isDigit = true) (hne : F ≠ [])
    (hid : idiff = (intOf I : Int)) :
    targetProduct (.inverse idiff (String.mk (I ++ '.' :: F))) = .ok (specTarget I F) ∧
      getTargetFromDiff (.inverse idiff (String.mk (I ++ '.' :: F))) pfx
        = formatTarget (specTarget I F) pfx ∧
      intOf (F.dropWhile (fun c => c == '0')) = intOf F ∧
      BigInteger.ofString "" = .ok 0 ∧
      ((∀ c ∈ F, c = '0') → specTarget I F = base * (intOf I : Int)) := by
  have _ := hne
  have hp := targetProduct_plain idiff I (some F) hI (fun G h => by cases h; exact hF) hid
  have hfloor : plainTarget I (some F) = specTarget I F := plainTarget_eq_floor I (some F)
  simp only [plainText] at hp
  rw [hfloor] at hp
  refine ⟨hp, ?_, intOf_dropWhile_zero F, by decide, ?_⟩
  · simp only [getTargetFromDiff, hp]
  · intro hz
    have hnil : F.dropWhile (fun c => c == '0') = [] := by
      rw [List.dropWhile_eq_nil_iff]
      intro c hc
      simp [hz c hc]
    have hzero : intOf F = 0 := by
      rw [← intOf_dropWhile_zero, hnil]
      rfl
    rw [← hfloor]
    simp only [plainTarget, hnil]
    have : intOf ([] : List Char) = 0 := rfl
    simp [this]

/-- C13, on the rendering `0.001` (difficulty 1000): the fractional part
contributes the floor of `base / 1000`. -/
theorem getTargetFromDiff_value_preserving_witness :
    targetProduct (.inverse 0 "0.001") = .ok (base / 1000) ∧
      specTarget ['0'] ['0', '0', '1'] = base / 1000 := by
  have h := getTargetFromDiff_value_preserving 0 ['0'] ['0', '0', '1'] .DontAdd
    (by decide) (by decide) (by decide) (by decide)
  have hv : targetProduct (.inverse 0 "0.001") = .ok (base / 1000) := by decide
  refine ⟨hv, ?_⟩
  have h1 := h.1
  rw [show (String.mk (['0'] ++ '.' :: ['0', '0', '1'])) = "0.001" from by decide, hv] at h1
  exact (Except.ok.inj h1).symm

end dev

namespace dev

/-! ## Targets below `2 ^ 256` -/

theorem base_mul_pow : base * 2 ^ 32 = 0xffff * 2 ^ 240 ∧ base * 2 ^ 32 < 2 ^ 256 := by
  unfold base
  constructor <;> norm_num

/-- A plain rendering whose value is at most `2 ^ 32` has its target below
`2 ^ 256`. -/
theorem plainTarget_lt_of_value_le (I : List Char) (oF : Option (List Char))
    (h : plainValue I oF ≤ 2 ^ 32) : plainTarget I oF < 2 ^ 256 := by
  rw [plainTarget_eq_floor, Int.floor_lt]
  have hb : (0 : ℚ) ≤ (base : ℚ) := by unfold base; norm_num
  have h1 : (base : ℚ) * plainValue I oF ≤ (base : ℚ) * 2 ^ 32 :=
    mul_le_mul_of_nonneg_left h hb
  have h2 : (base : ℚ) * 2 ^ 32 < ((2 ^ 256 : Int) : ℚ) := by
    unfold base
    norm_num
  exact lt_of_le_of_lt h1 h2

/-- C14. When the product `t` computed by `getTargetFromDiff` satisfies
`0 ≤ t < 2 ^ 256`, the digits returned are exactly 64, they are the base 16
numeral of `t` behind the zeros that fill the width, and read in base 16 they
give `t`.  This covers every plain rendering of value at most `2 ^ 32`, since
`base * 2 ^ 32 = 0xffff * 2 ^ 240 < 2 ^ 256`. -/
theorem getTargetFromDiff_padded (d : Difficulty) (t : Int)
    (ht : targetProduct d = .ok t) (h0 : 0 ≤ t) (hlt : t < 2 ^ 256) :
    (∃ digits : List Char,
      getTargetFromDiff d .DontAdd = .ok (String.mk digits) ∧
        getTargetFromDiff d .Add = .ok (String.mk ('0' :: 'x' :: digits)) ∧
        digits.length = 64 ∧
        digits = List.replicate (64 - (Nat.toDigits 16 t.toNat).length) '0'
          ++ Nat.toDigits 16 t.toNat ∧
        (hexOf digits : Int) = t) ∧
      (∀ (I : List Char) (oF : Option (List Char)),
        plainValue I oF ≤ 2 ^ 32 → 0 ≤ plainTarget I oF ∧ plainTarget I oF < 2 ^ 256) ∧
      base * 2 ^ 32 = 0xffff * 2 ^ 240 ∧ base * 2 ^ 32 < 2 ^ 256 := by
  obtain ⟨h1, h2⟩ := getTargetFromDiff_of_product d t h0 ht
  refine ⟨⟨targetDigits t.toNat, h1, h2, ?_, targetDigits_eq t.toNat, ?_⟩, ?_, base_mul_pow⟩
  · apply targetDigits_length
    rw [Int.toNat_lt h0]
    norm_num at hlt ⊢
    exact hlt
  · rw [hexOf_targetDigits]
    exact Int.toNat_of_nonneg h0
  · intro I oF hv
    exact ⟨plainTarget_nonneg I oF, plainTarget_lt_of_value_le I oF hv⟩

/-- C14, at difficulty 3 (reciprocal `0.33333333333333331`). -/
theorem getTargetFromDiff_padded_witness :
    ∃ digits : List Char,
      getTargetFromDiff (.inverse 0 "0.33333333333333331") .DontAdd
          = .ok (String.mk digits) ∧
        digits.length = 64 ∧
        (hexOf digits : Int) = base * 33333333333333331 / 10 ^ 17 := by
  have hp : targetProduct (.inverse 0 "0.33333333333333331")
      = .ok (base * 33333333333333331 / 10 ^ 17) := by decide
  obtain ⟨digits, h1, _, h3, _, h5⟩ :=
    (getTargetFromDiff_padded (.inverse 0 "0.33333333333333331")
      (base * 33333333333333331 / 10 ^ 17) hp
      (by unfold base; norm_num) (by unfold base; norm_num)).1
  exact ⟨digits, h1, h3, h5⟩

/-! ## The two constants -/

theorem dividend_eq : dividend = 2 ^ 32 * base := by
  unfold dividend base
  norm_num

/-- The quotient computed on the prefixed target of a reciprocal rendered as
the integer digits `I`. -/
theorem roundTrip_integer (I : List Char) (hI : ∀ c ∈ I, c.isDigit = true)
    (hpos : 0 < intOf I) :
    roundTrip (.inverse (intOf I : Int) (String.mk I)) = .ok ((2 : Int) ^ 32 / (intOf I : Int)) := by
  have hb : (0 : Int) < base := by unfold base; norm_num
  have hn : (0 : Int) < (intOf I : Int) := by exact_mod_cast hpos
  have hp := targetProduct_plain (intOf I : Int) I none hI (fun F h => by cases h) rfl
  simp only [plainText, plainTarget] at hp
  have h0 : (0 : Int) ≤ base * (intOf I : Int) := by positivity
  have hadd := (getTargetFromDiff_of_product _ _ h0 hp).2
  have hhex : ∀ c ∈ targetDigits (base * (intOf I : Int)).toNat, isHexDigit c = true :=
    fun c hc => isHexDigit_of_lower c (targetDigits_lower _ c hc)
  have hval : hexOf (targetDigits (base * (intOf I : Int)).toNat)
      = (base * (intOf I : Int)).toNat := hexOf_targetDigits _
  have hposv : 0 < hexOf (targetDigits (base * (intOf I : Int)).toNat) := by
    rw [hval]
    have : (0 : Int) < base * (intOf I : Int) := by positivity
    omega
  simp only [roundTrip, hadd]
  rw [getHashesToTarget_prefixed _ hhex hposv, hval, Int.toNat_of_nonneg h0, dividend_eq]
  congr 1
  rw [mul_comm base]
  exact Int.mul_ediv_mul_of_pos_left _ _ hb

/-- C15. The constant `dividend` is `2 ^ 32 * base`; hence for a reciprocal
rendered as the digits of an integer `n` with `0 < n ≤ 2 ^ 32`, the quotient
that `getHashesToTarget` computes on the prefixed target is the floor of
`2 ^ 32 / n`. -/
theorem roundTrip_integer_reciprocal (I : List Char) (hI : ∀ c ∈ I, c.isDigit = true)
    (hpos : 0 < intOf I) (_hle : intOf I ≤ 2 ^ 32) :
    dividend = 2 ^ 32 * base ∧
      targetProduct (.inverse (intOf I : Int) (String.mk I)) = .ok (base * (intOf I : Int)) ∧
      roundTrip (.inverse (intOf I : Int) (String.mk I))
        = .ok ((2 : Int) ^ 32 / (intOf I : Int)) := by
  refine ⟨dividend_eq, ?_, roundTrip_integer I hI hpos⟩
  have hp := targetProduct_plain (intOf I : Int) I none hI (fun F h => by cases h) rfl
  simpa only [plainText, plainTarget] using hp

/-- C15, at difficulty 1 (reciprocal `1`): the quotient is `4294967296`. -/
theorem roundTrip_integer_reciprocal_witness :
    roundTrip (.inverse 1 "1") = .ok 4294967296 := by
  have h := (roundTrip_integer_reciprocal ['1'] (by decide) (by decide) (by decide)).2.2
  have h1 : intOf ['1'] = 1 := by decide
  rw [h1] at h
  rw [show ("1" : String) = String.mk ['1'] from rfl, show ((1 : Nat) : Int) = 1 from rfl] at *
  rw [h]
  norm_num

end dev

namespace dev

/-! ## `fromHex`: single characters and indexing -/

theorem hexDigitValue_lt (c : Char) (hc : isHexDigit c = true) : hexDigitValue c < 16 := by
  have h := (isHexDigit_iff c).1 hc
  rw [hexDigitValue_eq]
  split_ifs <;> omega

theorem fromHexChar_hex (c : Char) (hc : isHexDigit c = true) (_throw : WhenError) :
    fromHexChar c _throw = .value (hexDigitValue c : Int) := by
  have h := (isHexDigit_iff c).1 hc
  rw [hexDigitValue_eq]
  simp only [fromHexChar]
  split_ifs <;> (congr 1; omega)

theorem fromHexChar_not_hex (c : Char) (hc : isHexDigit c = false) :
    fromHexChar c .DontThrow = .value (-1) ∧ fromHexChar c .Throw = .badHexCharacter := by
  have h : ¬ ((48 ≤ c.toNat ∧ c.toNat ≤ 57) ∨ (97 ≤ c.toNat ∧ c.toNat ≤ 102)
      ∨ (65 ≤ c.toNat ∧ c.toNat ≤ 70)) := by
    intro h
    rw [(isHexDigit_iff c).2 h] at hc
    exact absurd hc (by decide)
  have h1 : ¬ ((48 : Int) ≤ (c.toNat : Int) ∧ (c.toNat : Int) ≤ 57) := by omega
  have h2 : ¬ ((97 : Int) ≤ (c.toNat : Int) ∧ (c.toNat : Int) ≤ 102) := by omega
  have h3 : ¬ ((65 : Int) ≤ (c.toNat : Int) ∧ (c.toNat : Int) ≤ 70) := by omega
  constructor
  · simp only [fromHexChar]
    rw [if_neg h1, if_neg h2, if_neg h3, if_neg (by decide)]
  · simp only [fromHexChar]
    rw [if_neg h1, if_neg h2, if_neg h3]
    rfl

theorem fromHexChar_dontThrow (c : Char) :
    fromHexChar c .DontThrow
      = .value (if isHexDigit c = true then (hexDigitValue c : Int) else -1) := by
  by_cases hc : isHexDigit c = true
  · rw [if_pos hc, fromHexChar_hex c hc]
  · rw [if_neg hc]
    exact (fromHexChar_not_hex c (by simpa using hc)).1

theorem charAt_of_get (s : List Char) (i : Nat) (c : Char) (h : s.get? i = some c) :
    charAt s i = .value c := by
  unfold charAt
  rw [h]

theorem charAt_length (s : List Char) : charAt s s.length = .value (Char.ofNat 0) := by
  have : s.get? s.length = none := List.get?_eq_none.2 (Nat.le_refl _)
  unfold charAt
  rw [this]
  simp

theorem charAt_ne_outOfRange (s : List Char) (i : Nat) (h : i ≤ s.length) :
    ∃ c, charAt s i = .value c := by
  rcases Nat.lt_or_eq_of_le h with hlt | heq
  · exact ⟨s.get ⟨i, hlt⟩, charAt_of_get s i _ (List.get?_eq_get hlt)⟩
  · exact ⟨Char.ofNat 0, by rw [heq]; exact charAt_length s⟩

theorem drop_two (s : List Char) (i : Nat) (h : i + 1 < s.length) :
    ∃ a b, s.get? i = some a ∧ s.get? (i + 1) = some b ∧ s.drop i = a :: b :: s.drop (i + 2) := by
  have hi : i < s.length := by omega
  refine ⟨s.get ⟨i, hi⟩, s.get ⟨i + 1, h⟩, List.get?_eq_get hi, List.get?_eq_get h, ?_⟩
  rw [List.drop_eq_getElem_cons hi, List.drop_eq_getElem_cons h]
  rfl

theorem byte_of_pair (a b : Nat) (ha : a < 16) (hb : b < 16) :
    ((((a : Int) * 16 + (b : Int)) % 256).toNat) = 16 * a + b := by
  omega

end dev

namespace dev

/-! ## `fromHex`: the loop -/

theorem mod_unsignedRange (n : Nat) (h : n < unsignedRange) : n % unsignedRange = n :=
  Nat.mod_eq_of_lt h

/-- One iteration of the loop on a pair inside the string. -/
theorem fromHexLoop_step (s : List Char) (mode : WhenError) (hs : s.length < unsignedRange)
    (fuel i : Nat) (ret : List Nat) (a b : Char) (hi : i + 1 < s.length)
    (ha : s.get? i = some a) (hb : s.get? (i + 1) = some b) :
    fromHexLoop s mode (fuel + 1) i ret =
      if isHexDigit a = true ∧ isHexDigit b = true then
        fromHexLoop s mode fuel (i + 2) (ret ++ [16 * hexDigitValue a + hexDigitValue b])
      else if mode = .Throw then .badHexCharacter
      else .value [] := by
  have hi0 : i < s.length := by omega
  have h1 : (i + 1) % unsignedRange = i + 1 := mod_unsignedRange _ (by omega)
  have h2 : (i + 2) % unsignedRange = i + 2 := mod_unsignedRange _ (by omega)
  rw [fromHexLoop, if_pos hi0, h1, h2, charAt_of_get s i a ha, charAt_of_get s (i + 1) b hb]
  simp only [Outcome.bind, fromHexChar_dontThrow]
  by_cases hxa : isHexDigit a = true
  · by_cases hxb : isHexDigit b = true
    · have hva := hexDigitValue_lt a hxa
      have hvb := hexDigitValue_lt b hxb
      have hna : (hexDigitValue a : Int) ≠ -1 := by omega
      have hnb : (hexDigitValue b : Int) ≠ -1 := by omega
      simp only [hxa, hxb, if_true, and_self]
      rw [if_pos ⟨hna, hnb⟩, byte_of_pair _ _ hva hvb]
    · have hxb' : isHexDigit b = false := by simpa using hxb
      simp [hxa, hxb']
  · have hxa' : isHexDigit a = false := by simpa using hxa
    simp [hxa']

theorem fromHexLoop_end (s : List Char) (mode : WhenError) (fuel : Nat) (ret : List Nat) :
    fromHexLoop s mode (fuel + 1) s.length ret = .value ret := by
  rw [fromHexLoop, if_neg (Nat.lt_irrefl _)]

/-- On hexadecimal digits the loop pushes the bytes of the successive pairs. -/
theorem fromHexLoop_hex (s : List Char) (mode : WhenError) (hs : s.length < unsignedRange)
    (fuel : Nat) :
    ∀ (i : Nat) (ret : List Nat), i ≤ s.length → (s.length - i) % 2 = 0 →
      (s.length - i) / 2 < fuel → (∀ c ∈ s.drop i, isHexDigit c = true) →
      fromHexLoop s mode fuel i ret = .value (ret ++ pairBytes (s.drop i)) := by
  induction fuel with
  | zero => intro i ret _ _ h; omega
  | succ fuel ih =>
    intro i ret hi hpar hfuel hhex
    rcases Nat.lt_or_eq_of_le hi with hlt | heq
    · have hi1 : i + 1 < s.length := by omega
      obtain ⟨a, b, ha, hb, hdrop⟩ := drop_two s i hi1
      have hxa : isHexDigit a = true := hhex a (by rw [hdrop]; simp)
      have hxb : isHexDigit b = true := hhex b (by rw [hdrop]; simp)
      rw [fromHexLoop_step s mode hs fuel i ret a b hi1 ha hb, if_pos ⟨hxa, hxb⟩]
      rw [ih (i + 2) _ (by omega) (by omega) (by omega)
        (fun c hc => hhex c (by rw [hdrop]; simp [hc]))]
      rw [hdrop]
      simp [pairBytes]
    · subst heq
      rw [fromHexLoop_end]
      simp [pairBytes]

/-- With a character that is no hexadecimal digit ahead, the loop fails, and
nothing decoded so far is returned. -/
theorem fromHexLoop_bad (s : List Char) (mode : WhenError) (hs : s.length < unsignedRange)
    (fuel : Nat) :
    ∀ (i : Nat) (ret : List Nat), i ≤ s.length → (s.length - i) % 2 = 0 →
      (s.length - i) / 2 < fuel → (∃ c ∈ s.drop i, isHexDigit c = false) →
      fromHexLoop s mode fuel i ret
        = if mode = .Throw then .badHexCharacter else .value [] := by
  induction fuel with
  | zero => intro i ret _ _ h; omega
  | succ fuel ih =>
    intro i ret hi hpar hfuel hbad
    rcases Nat.lt_or_eq_of_le hi with hlt | heq
    · have hi1 : i + 1 < s.length := by omega
      obtain ⟨a, b, ha, hb, hdrop⟩ := drop_two s i hi1
      rw [fromHexLoop_step s mode hs fuel i ret a b hi1 ha hb]
      by_cases hx : isHexDigit a = true ∧ isHexDigit b = true
      · rw [if_pos hx]
        apply ih (i + 2) _ (by omega) (by omega) (by omega)
        obtain ⟨c, hc, hcbad⟩ := hbad
        rw [hdrop] at hc
        rcases List.mem_cons.1 hc with e | hc
        · subst e; rw [hx.1] at hcbad; exact absurd hcbad (by decide)
        · rcases List.mem_cons.1 hc with e | hc
          · subst e; rw [hx.2] at hcbad; exact absurd hcbad (by decide)
          · exact ⟨c, hc, hcbad⟩
      · rw [if_neg hx]
    · subst heq
      obtain ⟨c, hc, _⟩ := hbad
      simp at hc

end dev

namespace dev

/-! ## `fromHex`: the whole function -/

/-- The detection of the prefix: the local `s` is 2 exactly when the string
begins with `0x`, and the characters from `s` on are the string without that
prefix. -/
theorem fromHex_eq_from (fuel : Nat) (s : List Char) (mode : WhenError) :
    ∃ start : Nat, fromHex fuel s mode = fromHexFrom fuel s mode start ∧
      start ≤ s.length ∧ start % 2 = 0 ∧ start ≤ 2 ∧ s.drop start = dropLower0x s := by
  match s with
  | [] =>
    refine ⟨0, ?_, by simp, rfl, by omega, rfl⟩
    rfl
  | [c] =>
    refine ⟨0, ?_, by simp, rfl, by omega, rfl⟩
    by_cases hc : c = '0'
    · subst hc; rfl
    · simp [fromHex, charAt, Outcome.bind, hc]
  | c :: d :: t =>
    by_cases hc : c = '0'
    · by_cases hd : d = 'x'
      · refine ⟨2, ?_, by simp, rfl, by omega, by simp [dropLower0x, hc, hd]⟩
        simp [fromHex, charAt, Outcome.bind, hc, hd]
      · refine ⟨0, ?_, by simp, rfl, by omega, by simp [dropLower0x, hd]⟩
        simp [fromHex, charAt, Outcome.bind, hc, hd]
    · refine ⟨0, ?_, by simp, rfl, by omega, by simp [dropLower0x, hc]⟩
      simp [fromHex, charAt, Outcome.bind, hc]

theorem drop_one (s : List Char) (i : Nat) (h : i < s.length) :
    ∃ a, s.get? i = some a ∧ s.drop i = a :: s.drop (i + 1) :=
  ⟨s.get ⟨i, h⟩, List.get?_eq_get h, by rw [List.drop_eq_getElem_cons h]; rfl⟩

theorem specFromHex_even (h : List Char) (hp : h.length % 2 = 0) :
    specFromHex h = pairBytes h := by
  unfold specFromHex
  rw [if_neg (by omega)]

theorem specFromHex_odd (c : Char) (rest : List Char) (hp : (c :: rest).length % 2 = 1) :
    specFromHex (c :: rest) = hexDigitValue c :: pairBytes rest := by
  unfold specFromHex
  rw [if_pos hp]

theorem byte_of_digit (a : Nat) (ha : a < 16) : (((a : Int) % 256).toNat) = a := by
  omega

/-- Behind the prefix, a run of hexadecimal digits is decoded into the bytes
of the claim. -/
theorem fromHexFrom_hex (fuel : Nat) (s : List Char) (mode : WhenError) (start : Nat)
    (hs : s.length < unsignedRange) (hstart : start ≤ s.length) (hpar : start % 2 = 0)
    (hfuel : s.length / 2 < fuel) (hhex : ∀ c ∈ s.drop start, isHexDigit c = true) :
    fromHexFrom fuel s mode start = .value (specFromHex (s.drop start)) := by
  have hlen : (s.drop start).length = s.length - start := List.length_drop _ _
  unfold fromHexFrom
  by_cases hodd : s.length % 2 = 1
  · rw [if_pos hodd]
    have hlt : start < s.length := by omega
    obtain ⟨a, ha, hdrop⟩ := drop_one s start hlt
    have hxa : isHexDigit a = true := hhex a (by rw [hdrop]; simp)
    have hva := hexDigitValue_lt a hxa
    have hna : (hexDigitValue a : Int) ≠ -1 := by omega
    rw [charAt_of_get s start a ha]
    simp only [Outcome.bind, fromHexChar_hex a hxa]
    rw [if_pos hna, byte_of_digit _ hva]
    rw [fromHexLoop_hex s mode hs fuel (start + 1) _ (by omega) (by omega) (by omega)
      (fun c hc => hhex c (by rw [hdrop]; simp [hc]))]
    rw [hdrop, specFromHex_odd a _ (by rw [← hdrop, hlen]; omega)]
    rfl
  · rw [if_neg hodd]
    rw [fromHexLoop_hex s mode hs fuel start [] hstart (by omega) (by omega) hhex]
    rw [specFromHex_even _ (by rw [hlen]; omega)]
    rfl

/-- Behind the prefix, a character that is no hexadecimal digit makes the
call fail. -/
theorem fromHexFrom_bad (fuel : Nat) (s : List Char) (mode : WhenError) (start : Nat)
    (hs : s.length < unsignedRange) (hstart : start ≤ s.length) (hpar : start % 2 = 0)
    (hfuel : s.length / 2 < fuel) (hbad : ∃ c ∈ s.drop start, isHexDigit c = false) :
    fromHexFrom fuel s mode start = if mode = .Throw then .badHexCharacter else .value [] := by
  unfold fromHexFrom
  by_cases hodd : s.length % 2 = 1
  · rw [if_pos hodd]
    have hlt : start < s.length := by omega
    obtain ⟨a, ha, hdrop⟩ := drop_one s start hlt
    rw [charAt_of_get s start a ha]
    simp only [Outcome.bind, fromHexChar_dontThrow]
    by_cases hxa : isHexDigit a = true
    · have hva := hexDigitValue_lt a hxa
      have hna : (hexDigitValue a : Int) ≠ -1 := by omega
      rw [if_pos hxa, if_pos hna]
      apply fromHexLoop_bad s mode hs fuel (start + 1) _ (by omega) (by omega) (by omega)
      obtain ⟨c, hc, hcbad⟩ := hbad
      rw [hdrop] at hc
      rcases List.mem_cons.1 hc with e | hc
      · subst e; rw [hxa] at hcbad; exact absurd hcbad (by decide)
      · exact ⟨c, hc, hcbad⟩
    · rw [if_neg hxa]
      simp
  · rw [if_neg hodd]
    exact fromHexLoop_bad s mode hs fuel start [] hstart (by omega) (by omega) hbad

end dev

namespace dev

/-! ## `fromHex`: the bytes -/

theorem pairBytes_length : ∀ (n : Nat) (l : List Char), l.length ≤ n →
    (pairBytes l).length = l.length / 2 := by
  intro n
  induction n with
  | zero =>
    intro l hl
    have : l = [] := List.length_eq_zero.1 (by omega)
    subst this
    rfl
  | succ n ih =>
    intro l hl
    match l with
    | [] => rfl
    | [_] => simp [pairBytes]
    | a :: b :: rest =>
      have := ih rest (by simp only [List.length_cons] at hl; omega)
      simp only [pairBytes, List.length_cons, this]
      omega

theorem specFromHex_length (h : List Char) : (specFromHex h).length = (h.length + 1) / 2 := by
  unfold specFromHex
  by_cases hodd : h.length % 2 = 1
  · rw [if_pos hodd]
    match h with
    | [] => simp at hodd
    | c :: rest =>
      simp only [List.length_cons, pairBytes_length rest.length rest (Nat.le_refl _)] at hodd ⊢
      omega
  · rw [if_neg hodd, pairBytes_length h.length h (Nat.le_refl _)]
    omega

theorem foldl_pairBytes : ∀ (n : Nat) (l : List Char) (a : Nat), l.length ≤ n →
    l.length % 2 = 0 →
    (pairBytes l).foldl (fun a b => 256 * a + b) a
      = l.foldl (fun a c => 16 * a + hexDigitValue c) a := by
  intro n
  induction n with
  | zero =>
    intro l a hl _
    have : l = [] := List.length_eq_zero.1 (by omega)
    subst this
    rfl
  | succ n ih =>
    intro l a hl hpar
    match l with
    | [] => rfl
    | [_] => simp at hpar
    | x :: y :: rest =>
      simp only [List.length_cons] at hl hpar
      simp only [pairBytes, List.foldl_cons]
      rw [ih rest _ (by omega) (by omega)]
      congr 1
      ring

/-- The bytes of the claim, read big-endian, give the value of the digits in
base 16. -/
theorem bytesValue_specFromHex (h : List Char) : bytesValue (specFromHex h) = hexOf h := by
  unfold bytesValue hexOf specFromHex
  by_cases hodd : h.length % 2 = 1
  · rw [if_pos hodd]
    match h with
    | [] => simp at hodd
    | c :: rest =>
      simp only [List.length_cons] at hodd
      simp only [List.foldl_cons]
      rw [foldl_pairBytes rest.length rest _ (Nat.le_refl _) (by omega)]
  · rw [if_neg hodd]
    exact foldl_pairBytes h.length h 0 (Nat.le_refl _) (by omega)

theorem pairBytes_lt : ∀ (n : Nat) (l : List Char), l.length ≤ n →
    (∀ c ∈ l, isHexDigit c = true) → ∀ b ∈ pairBytes l, b < 256 := by
  intro n
  induction n with
  | zero =>
    intro l hl _ b hb
    have : l = [] := List.length_eq_zero.1 (by omega)
    subst this
    simp [pairBytes] at hb
  | succ n ih =>
    intro l hl hhex b hb
    match l with
    | [] => simp [pairBytes] at hb
    | [_] => simp [pairBytes] at hb
    | x :: y :: rest =>
      simp only [List.length_cons] at hl
      simp only [pairBytes, List.mem_cons] at hb
      rcases hb with e | hb
      · have hx := hexDigitValue_lt x (hhex x (by simp))
        have hy := hexDigitValue_lt y (hhex y (by simp))
        omega
      · exact ih rest (by omega) (fun c hc => hhex c (by simp [hc])) b hb

theorem specFromHex_lt (h : List Char) (hhex : ∀ c ∈ h, isHexDigit c = true) :
    ∀ b ∈ specFromHex h, b < 256 := by
  intro b hb
  unfold specFromHex at hb
  by_cases hodd : h.length % 2 = 1
  · rw [if_pos hodd] at hb
    match h with
    | [] => simp at hodd
    | c :: rest =>
      simp only [List.mem_cons] at hb
      rcases hb with e | hb
      · have := hexDigitValue_lt c (hhex c (by simp))
        omega
      · exact pairBytes_lt rest.length rest (Nat.le_refl _)
          (fun d hd => hhex d (by simp [hd])) b hb
  · rw [if_neg hodd] at hb
    exact pairBytes_lt h.length h (Nat.le_refl _) hhex b hb

/-! ## `fromHex`: the accesses stay inside the string -/

theorem fromHexLoop_in_range (s : List Char) (mode : WhenError) (fuel : Nat) :
    ∀ (i : Nat) (ret : List Nat), fromHexLoop s mode fuel i ret ≠ .outOfRange := by
  induction fuel with
  | zero => intro i ret h; simp [fromHexLoop] at h
  | succ fuel ih =>
    intro i ret
    unfold fromHexLoop
    by_cases hi : i < s.length
    · rw [if_pos hi]
      have hle : (i + 1) % unsignedRange ≤ s.length :=
        Nat.le_trans (Nat.mod_le _ _) hi
      obtain ⟨a, ha⟩ := charAt_ne_outOfRange s i (Nat.le_of_lt hi)
      obtain ⟨b, hb⟩ := charAt_ne_outOfRange s _ hle
      rw [ha, hb]
      simp only [Outcome.bind, fromHexChar_dontThrow]
      split_ifs <;> first | exact ih _ _ | simp
    · rw [if_neg hi]
      simp

theorem fromHexFrom_in_range (fuel : Nat) (s : List Char) (mode : WhenError) (start : Nat)
    (hstart : start ≤ s.length) : fromHexFrom fuel s mode start ≠ .outOfRange := by
  unfold fromHexFrom
  obtain ⟨a, ha⟩ := charAt_ne_outOfRange s start hstart
  rw [ha]
  simp only [Outcome.bind, fromHexChar_dontThrow]
  split_ifs <;> first | exact fromHexLoop_in_range s mode fuel _ _ | simp

/-- No call of `fromHex` reads the string beyond its size. -/
theorem fromHex_in_range (fuel : Nat) (s : List Char) (mode : WhenError) :
    fromHex fuel s mode ≠ .outOfRange := by
  obtain ⟨start, h, hstart, _, _, _⟩ := fromHex_eq_from fuel s mode
  rw [h]
  exact fromHexFrom_in_range fuel s mode start hstart

end dev

namespace dev

/-! ## `fromHex`: strings of `2 ^ 32` characters and more -/

theorem unsignedRange_eq : unsignedRange = 4294967296 := by
  unfold unsignedRange
  norm_num

/-- When the first `2 ^ 32` characters are hexadecimal digits, the index comes
back to its start before it reaches the size: the loop never ends. -/
theorem fromHexLoop_wrap (s : List Char) (mode : WhenError) (hlen : unsignedRange ≤ s.length)
    (hall : ∀ i, i < unsignedRange → ∃ c, s.get? i = some c ∧ isHexDigit c = true)
    (fuel : Nat) :
    ∀ (i : Nat) (ret : List Nat), i < unsignedRange → i % 2 = 0 →
      fromHexLoop s mode fuel i ret = .unfinished := by
  have hR := unsignedRange_eq
  induction fuel with
  | zero => intro i ret _ _; rfl
  | succ fuel ih =>
    intro i ret hi hpar
    have hi1 : i + 1 < unsignedRange := by omega
    obtain ⟨a, ha, hxa⟩ := hall i hi
    obtain ⟨b, hb, hxb⟩ := hall (i + 1) hi1
    have hva := hexDigitValue_lt a hxa
    have hvb := hexDigitValue_lt b hxb
    have hna : (hexDigitValue a : Int) ≠ -1 := by omega
    have hnb : (hexDigitValue b : Int) ≠ -1 := by omega
    rw [fromHexLoop, if_pos (by omega), mod_unsignedRange _ hi1, charAt_of_get s i a ha,
      charAt_of_get s (i + 1) b hb]
    simp only [Outcome.bind, fromHexChar_hex a hxa, fromHexChar_hex b hxb]
    rw [if_pos ⟨hna, hnb⟩]
    exact ih _ _ (Nat.mod_lt _ (by omega)) (by rw [hR]; omega)

theorem fromHex_wrap (s : List Char) (hlen : unsignedRange ≤ s.length)
    (hpar : s.length % 2 = 0)
    (hall : ∀ i, i < unsignedRange → ∃ c, s.get? i = some c ∧ isHexDigit c = true)
    (fuel : Nat) (mode : WhenError) :
    fromHex fuel s mode = .unfinished := by
  have hR := unsignedRange_eq
  obtain ⟨start, h, _, hs2, hs3, _⟩ := fromHex_eq_from fuel s mode
  rw [h, fromHexFrom, if_neg (by omega)]
  exact fromHexLoop_wrap s mode hlen hall fuel start [] (by omega) hs2

theorem getAt_replicate_append (n : Nat) (c : Char) (t : List Char) (i : Nat) (h : i < n) :
    (List.replicate n c ++ t).get? i = some c := by
  rw [List.get?_eq_getElem?, List.getElem?_append_left (by rw [List.length_replicate]; exact h),
    List.getElem?_replicate, if_pos h]

/-! ## Claims on `fromHex` -/

/-- C16, as stated, fails: on a string of `2 ^ 32` digits `0` the index, an
`unsigned`, comes back to 0 when 2 is added to `2 ^ 32 - 2`; whatever the
number of iterations allowed, the call has not returned. -/
theorem fromHex_decodes_counterexample :
    (List.replicate (2 ^ 32) '0').length = 2 ^ 32 ∧
      (∀ c ∈ List.replicate (2 ^ 32) '0', isHexDigit c = true) ∧
      ∀ (fuel : Nat) (mode : WhenError),
        fromHex fuel (List.replicate (2 ^ 32) '0') mode = .unfinished := by
  refine ⟨List.length_replicate _ _, ?_, ?_⟩
  · intro c hc
    rw [List.eq_of_mem_replicate hc]
    decide
  · intro fuel mode
    have hs : List.replicate (2 ^ 32) '0' = List.replicate (2 ^ 32) '0' ++ [] :=
      (List.append_nil _).symm
    apply fromHex_wrap
    · rw [List.length_replicate]
      exact Nat.le_refl _
    · rw [List.length_replicate]
      norm_num
    · intro i hi
      refine ⟨'0', ?_, by decide⟩
      rw [hs]
      exact getAt_replicate_append _ _ _ _ hi

/-- C16, amended. For every string `h` of fewer than `2 ^ 32` hexadecimal
digits, and enough iterations allowed, `fromHex` returns the bytes of the
claim: the first digit alone when the number of digits is odd, then one byte
`16 * h + l` for each pair; they are `(n + 1) / 2` bytes, each below 256, and
their big-endian value is the value of `h` in base 16.  When `0x` and `h`
together have fewer than `2 ^ 32` characters, the prefixed string gives the
same result.  No call reads the string beyond its size. -/
theorem fromHex_decodes (fuel : Nat) (h : List Char) (mode : WhenError)
    (hhex : ∀ c ∈ h, isHexDigit c = true) (hlen : h.length < unsignedRange)
    (hfuel : h.length / 2 + 1 < fuel) :
    fromHex fuel h mode = .value (specFromHex h) ∧
      (specFromHex h).length = (h.length + 1) / 2 ∧
      (∀ b ∈ specFromHex h, b < 256) ∧
      bytesValue (specFromHex h) = hexOf h ∧
      (h.length + 2 < unsignedRange →
        fromHex fuel ('0' :: 'x' :: h) mode = fromHex fuel h mode) ∧
      (∀ (f : Nat) (s : List Char) (m : WhenError), fromHex f s m ≠ .outOfRange) := by
  have hplain : dropLower0x h = h := by
    match h with
    | [] => rfl
    | [_] => rfl
    | c :: d :: t =>
      have hd : d ≠ 'x' := by
        intro e
        have := hhex d (by simp)
        rw [e] at this
        exact absurd this (by decide)
      simp [dropLower0x, hd]
  have hmain : fromHex fuel h mode = .value (specFromHex h) := by
    obtain ⟨start, he, hs1, hs2, _, hdrop⟩ := fromHex_eq_from fuel h mode
    rw [he, fromHexFrom_hex fuel h mode start hlen hs1 hs2 (by omega)
      (by rw [hdrop, hplain]; exact hhex), hdrop, hplain]
  refine ⟨hmain, specFromHex_length h, specFromHex_lt h hhex, bytesValue_specFromHex h, ?_,
    fun f s m => fromHex_in_range f s m⟩
  intro hlen2
  obtain ⟨start, he, hs1, hs2, _, hdrop⟩ := fromHex_eq_from fuel ('0' :: 'x' :: h) mode
  have hpre : dropLower0x ('0' :: 'x' :: h) = h := by simp [dropLower0x]
  have hl : ('0' :: 'x' :: h).length = h.length + 2 := by simp
  rw [he, fromHexFrom_hex fuel _ mode start (by omega) hs1 hs2 (by omega)
    (by rw [hdrop, hpre]; exact hhex), hdrop, hpre, hmain]

/-- C16, amended, on the digits `abc`. -/
theorem fromHex_decodes_witness :
    fromHex 10 ['a', 'b', 'c'] .Throw = .value [10, 188] ∧
      fromHex 10 ['0', 'x', 'a', 'b', 'c'] .Throw = .value [10, 188] ∧
      bytesValue [10, 188] = hexOf ['a', 'b', 'c'] := by
  have h := fromHex_decodes 10 ['a', 'b', 'c'] .Throw (by decide)
    (by rw [unsignedRange_eq]; decide) (by decide)
  have hs : specFromHex ['a', 'b', 'c'] = [10, 188] := by decide
  rw [hs] at h
  refine ⟨h.1, ?_, h.2.2.2.1⟩
  rw [h.2.2.2.2.1 (by rw [unsignedRange_eq]; decide)]
  exact h.1

end dev

namespace dev

theorem mem_dropLower0x (s : List Char) (c : Char) (hc : c ∈ s) (h0 : c ≠ '0')
    (hx : c ≠ 'x') : c ∈ dropLower0x s := by
  match s with
  | [] => exact hc
  | [_] => exact hc
  | a :: b :: t =>
    by_cases hp : a = '0' ∧ b = 'x'
    · have hd : dropLower0x (a :: b :: t) = t := by simp [dropLower0x, hp]
      rw [hd]
      rcases List.mem_cons.1 hc with e | hc
      · exact absurd (e.trans hp.1) h0
      · rcases List.mem_cons.1 hc with e | hc
        · exact absurd (e.trans hp.2) hx
        · exact hc
    · have hd : dropLower0x (a :: b :: t) = a :: b :: t := by
        simp only [dropLower0x, if_neg hp]
      rw [hd]
      exact hc

/-- C17, as stated, fails: behind `2 ^ 32` digits `0` the two characters `zz`
are never reached, because the index, an `unsigned`, comes back to 0 first;
the string has characters outside the hexadecimal alphabet, and yet no call
throws `BadHexCharacter` or returns the empty vector, whatever the number of
iterations allowed. -/
theorem fromHex_all_or_nothing_counterexample :
    (∃ c ∈ dropLower0x (List.replicate (2 ^ 32) '0' ++ ['z', 'z']), isHexDigit c = false) ∧
      ∀ (fuel : Nat) (mode : WhenError),
        fromHex fuel (List.replicate (2 ^ 32) '0' ++ ['z', 'z']) mode = .unfinished := by
  constructor
  · exact ⟨'z', mem_dropLower0x _ 'z'
      (List.mem_append_right _ (List.mem_cons_self 'z' ['z'])) (by decide) (by decide),
      by decide⟩
  · intro fuel mode
    apply fromHex_wrap
    · rw [List.length_append, List.length_replicate]
      exact Nat.le_add_right _ _
    · rw [List.length_append, List.length_replicate]
      norm_num
    · intro i hi
      exact ⟨'0', getAt_replicate_append _ _ _ _ hi, by decide⟩

/-- C17, amended. On a string of fewer than `2 ^ 32` characters, and enough
iterations allowed: `fromHex` with `Throw` throws `BadHexCharacter` exactly
when some character behind the optional `0x` is outside `0-9`, `a-f`, `A-F`;
in that case `fromHex` with `DontThrow` returns the empty vector; and when
all these characters are hexadecimal digits both modes return the same
bytes. -/
theorem fromHex_all_or_nothing (fuel : Nat) (s : List Char)
    (hlen : s.length < unsignedRange) (hfuel : s.length / 2 < fuel) :
    (fromHex fuel s .Throw = .badHexCharacter ↔
        ∃ c ∈ dropLower0x s, isHexDigit c = false) ∧
      ((∃ c ∈ dropLower0x s, isHexDigit c = false) →
        fromHex fuel s .DontThrow = .value []) ∧
      ((∀ c ∈ dropLower0x s, isHexDigit c = true) →
        ∃ bytes, fromHex fuel s .Throw = .value bytes ∧
          fromHex fuel s .DontThrow = .value bytes) := by
  obtain ⟨st, het, hs1, hs2, _, hdrop⟩ := fromHex_eq_from fuel s .Throw
  obtain ⟨sd, hed, hd1, hd2, _, hdropd⟩ := fromHex_eq_from fuel s .DontThrow
  have hgood : (∀ c ∈ dropLower0x s, isHexDigit c = true) →
      fromHex fuel s .Throw = .value (specFromHex (dropLower0x s)) ∧
        fromHex fuel s .DontThrow = .value (specFromHex (dropLower0x s)) := by
    intro hall
    constructor
    · rw [het, fromHexFrom_hex fuel s _ st hlen hs1 hs2 hfuel (by rw [hdrop]; exact hall),
        hdrop]
    · rw [hed, fromHexFrom_hex fuel s _ sd hlen hd1 hd2 hfuel (by rw [hdropd]; exact hall),
        hdropd]
  have hbadT : (∃ c ∈ dropLower0x s, isHexDigit c = false) →
      fromHex fuel s .Throw = .badHexCharacter := by
    intro hbad
    rw [het, fromHexFrom_bad fuel s _ st hlen hs1 hs2 hfuel (by rw [hdrop]; exact hbad)]
    rfl
  refine ⟨⟨?_, hbadT⟩, ?_, fun hall => ⟨_, hgood hall⟩⟩
  · intro hthrow
    by_contra hno
    have hall : ∀ c ∈ dropLower0x s, isHexDigit c = true := by
      intro c hc
      by_contra hcb
      exact hno ⟨c, hc, by simpa using hcb⟩
    rw [(hgood hall).1] at hthrow
    exact absurd hthrow (by simp)
  · intro hbad
    rw [hed, fromHexFrom_bad fuel s _ sd hlen hd1 hd2 hfuel (by rw [hdropd]; exact hbad)]
    rfl

/-- C17, amended, on the strings `12zz` and `1234`. -/
theorem fromHex_all_or_nothing_witness :
    fromHex 10 ['1', '2', 'z', 'z'] .Throw = .badHexCharacter ∧
      fromHex 10 ['1', '2', 'z', 'z'] .DontThrow = .value [] ∧
      ∃ bytes, fromHex 10 ['1', '2', '3', '4'] .Throw = .value bytes ∧
        fromHex 10 ['1', '2', '3', '4'] .DontThrow = .value bytes := by
  have h1 := fromHex_all_or_nothing 10 ['1', '2', 'z', 'z']
    (by rw [unsignedRange_eq]; decide) (by decide)
  have h2 := fromHex_all_or_nothing 10 ['1', '2', '3', '4']
    (by rw [unsignedRange_eq]; decide) (by decide)
  have hbad : ∃ c ∈ dropLower0x ['1', '2', 'z', 'z'], isHexDigit c = false :=
    ⟨'z', by decide, by decide⟩
  exact ⟨h1.1.2 hbad, h1.2.1 hbad, h2.2.2 (by decide)⟩

end dev

namespace dev

/-! ## `escaped` -/

theorem foldl_escapedChar (charSigned all : Bool) (s : List Char) (ret : List Char) :
    s.foldl (fun ret i => ret ++ escapedChar charSigned all i) ret
      = ret ++ s.flatMap (escapedChar charSigned all) := by
  induction s generalizing ret with
  | nil => simp
  | cons c cs ih => rw [List.foldl_cons, ih, List.flatMap_cons, List.append_assoc]

/-- The loop appends, character by character, the pieces of `escapedChar`
between the two quotes. -/
theorem escaped_eq (charSigned all : Bool) (s : List Char) :
    escaped charSigned s all = '"' :: (s.flatMap (escapedChar charSigned all) ++ ['"']) := by
  unfold escaped
  rw [foldl_escapedChar]
  rfl

theorem hexTable_getD (k : Nat) (hk : k < 16) : hexTable.getD k '?' = Nat.digitChar k := by
  interval_cases k <;> rfl

theorem digitChar_ge (k : Nat) (hk : k < 16) : 32 ≤ (Nat.digitChar k).toNat := by
  interval_cases k <;> decide

theorem toUInt8_lt (i : Char) : toUInt8 i < 256 :=
  Nat.mod_lt _ (by norm_num)

theorem escapedChar_hex (i : Char) :
    ['\\', 'x', hexTable.getD (toUInt8 i / 16) '?', hexTable.getD (toUInt8 i % 16) '?']
      = ['\\', 'x', Nat.digitChar (toUInt8 i / 16), Nat.digitChar (toUInt8 i % 16)] := by
  have h := toUInt8_lt i
  rw [hexTable_getD _ (by omega), hexTable_getD _ (Nat.mod_lt _ (by norm_num))]

theorem lookup_prettyEscapes (i : Char) :
    prettyEscapes.lookup i
      = if i = '\r' then some 'r' else if i = '\n' then some 'n'
        else if i = '\t' then some 't' else if i = Char.ofNat 11 then some 'v' else none := by
  simp only [prettyEscapes, List.lookup]
  by_cases h1 : i = '\r'
  · subst h1; rfl
  · by_cases h2 : i = '\n'
    · subst h2; rfl
    · by_cases h3 : i = '\t'
      · subst h3; rfl
      · by_cases h4 : i = Char.ofNat 11
        · subst h4; rfl
        · have e1 : (i == '\r') = false := by simpa using h1
          have e2 : (i == '\n') = false := by simpa using h2
          have e3 : (i == '\t') = false := by simpa using h3
          have e4 : (i == Char.ofNat 11) = false := by simpa using h4
          simp only [e1, e2, e3, e4, if_neg h1, if_neg h2, if_neg h3, if_neg h4]

/-- With `_all` set every character is written `\xHH`. -/
theorem escapedChar_all (charSigned : Bool) (i : Char) :
    escapedChar charSigned true i
      = ['\\', 'x', Nat.digitChar (toUInt8 i / 16), Nat.digitChar (toUInt8 i % 16)] := by
  unfold escapedChar
  rw [if_neg (by simp), if_neg (by simp), if_neg (by simp), if_pos (Or.inr rfl)]
  exact escapedChar_hex i

/-- Without `_all`, no character below 0x20 is appended. -/
theorem escapedChar_printable (charSigned : Bool) (i : Char) :
    ∀ c ∈ escapedChar charSigned false i, 32 ≤ c.toNat := by
  intro c hc
  unfold escapedChar at hc
  have hu := toUInt8_lt i
  split_ifs at hc with h1 h2 h3 h4
  · simp only [List.mem_cons, List.mem_nil_iff, or_false] at hc
    rcases hc with rfl | rfl <;> decide
  · simp only [List.mem_cons, List.mem_nil_iff, or_false] at hc
    rcases hc with rfl | rfl <;> decide
  · simp only [List.mem_cons, List.mem_nil_iff, or_false] at hc
    rcases hc with rfl | rfl
    · decide
    · rw [lookup_prettyEscapes]
      split_ifs <;> first | decide | (rw [lookup_prettyEscapes] at h3; simp_all)
  · simp only [List.mem_cons, List.mem_nil_iff, or_false] at hc
    rcases hc with rfl | rfl | rfl | rfl
    · decide
    · decide
    · rw [hexTable_getD _ (by omega)]
      exact digitChar_ge _ (by omega)
    · rw [hexTable_getD _ (Nat.mod_lt _ (by norm_num))]
      exact digitChar_ge _ (Nat.mod_lt _ (by norm_num))
  · simp only [List.mem_cons, List.mem_nil_iff, or_false] at hc
    subst hc
    have hlt : lessThanSpace charSigned c = false := by
      by_contra hne
      exact h4 (Or.inl (by simpa using hne))
    unfold lessThanSpace toUInt8 at hlt
    simp only [Bool.or_eq_false_iff, decide_eq_false_iff_not] at hlt
    omega

/-- Without `_all`, a control byte is written `\r`, `\n`, `\t`, `\v`, or
`\xHH` with its two lower case hexadecimal digits. -/
theorem escapedChar_control (charSigned : Bool) (i : Char) (hi : i.toNat < 32) :
    escapedChar charSigned false i =
      if i = '\r' then ['\\', 'r'] else if i = '\n' then ['\\', 'n']
      else if i = '\t' then ['\\', 't'] else if i = Char.ofNat 11 then ['\\', 'v']
      else ['\\', 'x', Nat.digitChar (i.toNat / 16), Nat.digitChar (i.toNat % 16)] := by
  have hq : i ≠ '"' := by intro e; rw [e] at hi; exact absurd hi (by decide)
  have hb : i ≠ '\\' := by intro e; rw [e] at hi; exact absurd hi (by decide)
  have hu : toUInt8 i = i.toNat := Nat.mod_eq_of_lt (by omega)
  have hless : lessThanSpace charSigned i = true := by
    unfold lessThanSpace
    rw [hu]
    simp [hi]
  unfold escapedChar
  rw [if_neg (fun h => hq h.1), if_neg (fun h => hb h.1), lookup_prettyEscapes]
  by_cases h1 : i = '\r'
  · subst h1; rfl
  · by_cases h2 : i = '\n'
    · subst h2; rfl
    · by_cases h3 : i = '\t'
      · subst h3; rfl
      · by_cases h4 : i = Char.ofNat 11
        · subst h4; rfl
        · simp only [if_neg h1, if_neg h2, if_neg h3, if_neg h4]
          rw [if_neg (by simp), if_pos (Or.inl hless), escapedChar_hex, hu]

theorem escapedChar_all_length (charSigned : Bool) (s : List Char) :
    (s.flatMap (escapedChar charSigned true)).length = 4 * s.length := by
  induction s with
  | nil => rfl
  | cons c cs ih =>
    rw [List.flatMap_cons, List.length_append, ih, escapedChar_all]
    simp only [List.length_cons, List.length_nil]
    omega

theorem QuotesEscaped_append (l1 l2 : List Char) (h1 : QuotesEscaped l1)
    (h2 : QuotesEscaped l2) : QuotesEscaped (l1 ++ l2) := by
  intro k hk
  rw [List.get?_eq_getElem?] at hk
  by_cases hlt : k < l1.length
  · rw [List.getElem?_append_left hlt, ← List.get?_eq_getElem?] at hk
    obtain ⟨j, hj, hjv⟩ := h1 k hk
    refine ⟨j, hj, ?_⟩
    rw [List.get?_eq_getElem?, List.getElem?_append_left (by omega), ← List.get?_eq_getElem?]
    exact hjv
  · rw [List.getElem?_append_right (by omega), ← List.get?_eq_getElem?] at hk
    obtain ⟨j, hj, hjv⟩ := h2 _ hk
    refine ⟨l1.length + j, by omega, ?_⟩
    rw [List.get?_eq_getElem?, List.getElem?_append_right (by omega),
      ← List.get?_eq_getElem?]
    rw [show l1.length + j - l1.length = j by omega]
    exact hjv

theorem QuotesEscaped_flatMap (f : Char → List Char) (hf : ∀ i, QuotesEscaped (f i))
    (s : List Char) : QuotesEscaped (s.flatMap f) := by
  induction s with
  | nil => intro k hk; simp at hk
  | cons c cs ih =>
    rw [List.flatMap_cons]
    exact QuotesEscaped_append _ _ (hf c) ih

theorem QuotesEscaped_pair (c : Char) : QuotesEscaped ['\\', c] := by
  intro k hk
  match k with
  | 0 => exact absurd (Option.some.inj hk) (by decide)
  | 1 => exact ⟨0, rfl, rfl⟩
  | n + 2 => simp at hk

theorem QuotesEscaped_of_not_mem (l : List Char) (h : '"' ∉ l) : QuotesEscaped l := by
  intro k hk
  exact absurd (List.get?_mem hk) h

theorem digitChar_ne_quote (k : Nat) (hk : k < 16) : Nat.digitChar k ≠ '"' := by
  interval_cases k <;> decide

theorem escapedChar_quotes (charSigned : Bool) (i : Char) :
    QuotesEscaped (escapedChar charSigned false i) := by
  have hu := toUInt8_lt i
  unfold escapedChar
  split_ifs with h1 h2 h3 h4
  · exact QuotesEscaped_pair _
  · exact QuotesEscaped_pair _
  · exact QuotesEscaped_pair _
  · rw [escapedChar_hex]
    apply QuotesEscaped_of_not_mem
    intro hm
    simp only [List.mem_cons, List.mem_nil_iff, or_false] at hm
    rcases hm with e | e | e | e
    · exact absurd e (by decide)
    · exact absurd e (by decide)
    · exact digitChar_ne_quote _ (by omega) e.symm
    · exact digitChar_ne_quote _ (Nat.mod_lt _ (by norm_num)) e.symm
  · apply QuotesEscaped_of_not_mem
    intro hm
    simp only [List.mem_cons, List.mem_nil_iff, or_false] at hm
    exact h1 ⟨hm.symm, rfl⟩

/-- C18. For every string, `escaped(s, false)` is, between two double quotes,
the concatenation of the pieces written for the characters of `s`; no
character of these pieces is below 0x20 and every double quote among them
stands right behind a backslash; a control byte is written `\r`,
`\n`, `\t`, `\v` or `\xHH` with its two lower case hexadecimal digits; a
double quote and a backslash are written behind a backslash.  And
`escaped(s, true)` has length `4 * len(s) + 2`, every character being written
`\xHH`.  This holds whether `char` is signed or not. -/
theorem escaped_spec (charSigned : Bool) (s : List Char) :
    (∃ body : List Char, escaped charSigned s false = '"' :: (body ++ ['"']) ∧
        body = s.flatMap (escapedChar charSigned false) ∧
        (∀ c ∈ body, 32 ≤ c.toNat) ∧ QuotesEscaped body) ∧
      (∀ i : Char, i.toNat < 32 →
        escapedChar charSigned false i =
          if i = '\r' then ['\\', 'r'] else if i = '\n' then ['\\', 'n']
          else if i = '\t' then ['\\', 't'] else if i = Char.ofNat 11 then ['\\', 'v']
          else ['\\', 'x', Nat.digitChar (i.toNat / 16), Nat.digitChar (i.toNat % 16)]) ∧
      escapedChar charSigned false '"' = ['\\', '"'] ∧
      escapedChar charSigned false '\\' = ['\\', '\\'] ∧
      (escaped charSigned s true).length = 4 * s.length + 2 ∧
      escaped charSigned s true
        = '"' :: (s.flatMap (fun i =>
            ['\\', 'x', Nat.digitChar (toUInt8 i / 16), Nat.digitChar (toUInt8 i % 16)])
          ++ ['"']) := by
  refine ⟨⟨_, escaped_eq charSigned false s, rfl, ?_,
      QuotesEscaped_flatMap _ (escapedChar_quotes charSigned) s⟩,
    escapedChar_control charSigned,
    by cases charSigned <;> rfl, by cases charSigned <;> rfl, ?_, ?_⟩
  · intro c hc
    obtain ⟨i, _, hci⟩ := List.mem_flatMap.1 hc
    exact escapedChar_printable charSigned i c hci
  · rw [escaped_eq, List.length_cons, List.length_append, escapedChar_all_length]
    simp
  · rw [escaped_eq]
    congr 2
    apply List.flatMap_congr
    intro i _
    exact escapedChar_all charSigned i

end dev

namespace dev

/-! ## `getFormattedHr` -/

/-- Whatever the arithmetic, the loop stops at the first `k` in `0..3` at
which the test holds or `k = 3`, after `k` scalings. -/
theorem scaleLoop_spec {α : Type} (below : α → Bool) (scale : α → α) (fuel : Nat)
    (hfuel : 4 ≤ fuel) (x : α) :
    ∃ k, k ≤ 3 ∧ scaleLoop below scale fuel x 0 = some (scale^[k] x, k) ∧
      (k = 3 ∨ below (scale^[k] x) = true) ∧
      ∀ j, j < k → below (scale^[j] x) = false := by
  obtain ⟨f, rfl⟩ : ∃ f, fuel = f + 4 := ⟨fuel - 4, by omega⟩
  by_cases h0 : below x = true
  · refine ⟨0, by omega, ?_, Or.inr h0, fun j hj => by omega⟩
    simp [scaleLoop, h0]
  · by_cases h1 : below (scale x) = true
    · refine ⟨1, by omega, ?_, Or.inr h1, ?_⟩
      · simp [scaleLoop, h0, h1]
      · intro j hj
        have : j = 0 := by omega
        subst this
        simpa using h0
    · by_cases h2 : below (scale (scale x)) = true
      · refine ⟨2, by omega, ?_, Or.inr h2, ?_⟩
        · simp [scaleLoop, h0, h1, h2]
        · intro j hj
          have : j = 0 ∨ j = 1 := by omega
          rcases this with rfl | rfl
          · simpa using h0
          · simpa using h1
      · refine ⟨3, by omega, ?_, Or.inl rfl, ?_⟩
        · simp [scaleLoop, h0, h1, h2]
        · intro j hj
          have : j = 0 ∨ j = 1 ∨ j = 2 := by omega
          rcases this with rfl | rfl | rfl
          · simpa using h0
          · simpa using h1
          · simpa using h2

theorem iterate_div (k : Nat) (x : ℚ) : (fun y : ℚ => y / 1000)^[k] x = x / 1000 ^ k := by
  induction k with
  | zero => simp
  | succ k ih =>
    rw [Function.iterate_succ_apply', ih, pow_succ, div_div]

theorem suffixes_get (k : Nat) (hk : k ≤ 3) :
    ∃ suffix, suffixes.get? k = some suffix ∧
      suffix = (if k = 0 then "h" else if k = 1 then "Kh" else if k = 2 then "Mh" else "Gh") := by
  have : k = 0 ∨ k = 1 ∨ k = 2 ∨ k = 3 := by omega
  rcases this with rfl | rfl | rfl | rfl <;> exact ⟨_, rfl, rfl⟩

/-- C19. For every non-negative rate, over exact rational arithmetic and with
at least four evaluations of the test allowed, the loop of `getFormattedHr`
ends after `k ≤ 3` divisions by 1000, where `k` is the least number such that
`k = 3` or `hr / 1000 ^ k < 1000`; the value printed is `hr / 1000 ^ k` and the
suffix is the `k`-th of `h`, `Kh`, `Mh`, `Gh`.  The bound of three divisions
holds whatever the arithmetic. -/
theorem getFormattedHr_scaling (fuel : Nat) (hr : ℚ) (_h0 : 0 ≤ hr) (hfuel : 4 ≤ fuel) :
    (∃ k, k ≤ 3 ∧
        getFormattedHr fuel hr
          = some (hr / 1000 ^ k,
              if k = 0 then "h" else if k = 1 then "Kh" else if k = 2 then "Mh" else "Gh") ∧
        suffixes.get? k
          = some (if k = 0 then "h" else if k = 1 then "Kh" else if k = 2 then "Mh" else "Gh") ∧
        (k = 3 ∨ hr / 1000 ^ k < 1000) ∧
        ∀ j, j < k → ¬ (j = 3 ∨ hr / 1000 ^ j < 1000)) ∧
      (∀ (α : Type) (below : α → Bool) (scale : α → α) (x : α),
        ∃ k v, k ≤ 3 ∧ scaleLoop below scale fuel x 0 = some (v, k)) := by
  constructor
  · obtain ⟨k, hk, hloop, hstop, hleast⟩ :=
      scaleLoop_spec (fun x : ℚ => decide (x < 1000)) (fun x => x / 1000) fuel hfuel hr
    obtain ⟨suffix, hget, hsuffix⟩ := suffixes_get k hk
    rw [iterate_div] at hloop hstop
    refine ⟨k, hk, ?_, ?_, ?_, ?_⟩
    · simp only [getFormattedHr, hloop, hget, Option.map_some', hsuffix]
    · rw [hget, hsuffix]
    · rcases hstop with h | h
      · exact Or.inl h
      · exact Or.inr (by simpa using h)
    · intro j hj hcon
      have hb := hleast j hj
      rw [iterate_div] at hb
      rcases hcon with h | h
      · omega
      · simp [h] at hb
  · intro α below scale x
    obtain ⟨k, hk, hloop, _, _⟩ := scaleLoop_spec below scale fuel hfuel x
    exact ⟨k, _, hk, hloop⟩

/-- C19, at the rate 1500000: two divisions, and the suffix `Mh`. -/
theorem getFormattedHr_scaling_witness :
    getFormattedHr 4 1500000 = some (3 / 2, "Mh") ∧
      ∃ k, k ≤ 3 ∧ (k = 3 ∨ (1500000 : ℚ) / 1000 ^ k < 1000) ∧
        ∀ j, j < k → ¬ (j = 3 ∨ (1500000 : ℚ) / 1000 ^ j < 1000) := by
  obtain ⟨k, hk, _, _, hstop, hleast⟩ :=
    (getFormattedHr_scaling 4 1500000 (by norm_num) (by norm_num)).1
  refine ⟨?_, k, hk, hstop, hleast⟩
  simp only [getFormattedHr, scaleLoop]
  norm_num
  rfl

end dev
